import Mathlib

/-!
# Verification of the bollingerBands repository core logic

This file gives a shallow embedding, in Lean 4, of the core algorithms of the
repository:

* `backtest_core` and `_calculate_performance_metrics`
  (`modules/backtester/backtest_engine.py`),
* the period-window computation of `walk_forward_optimization`
  (`modules/backtester/walk_forward.py`),
* the allocation policies of
  `notebooks/risk management/dynamic_portfolio_modules/utils.py` and
  `portfolio_rebalancer.py`, together with the Sunday rebalance schedule and
  the portfolio compounding loop of `DynamicPortfolioRebalancer`,
* `calculate_linearity_metrics`
  (`notebooks/risk management/dynamic_portfolio_modules/linearity_analysis.py`).

Conventions of the embedding:

* Python floats are modelled as exact numbers: `ℚ` where the computation is
  rational (so concrete runs can be decided by `decide`) and `ℝ` where the
  source genuinely takes square roots.  `float('inf')` (which appears only in
  the degenerate branch of `calculate_linearity_metrics`) is modelled by
  `Option`, `none` standing for the infinite value.
* NumPy arrays are Lean lists; `a[i]` becomes `l.getD i d` (every access the
  embedded code performs is in bounds, so the default is irrelevant).
* A NumPy 2-d array carries its width even when it has zero rows, so matrix
  functions receive the number of columns (`n_assets`) as an explicit argument.
* Python dictionaries of statistics become association lists
  `List (String × ℚ)` in the insertion order of the source.
-/

/-! ## The simulation engine: `backtest_core`

A trade is the tuple `(pnl, direction, entry_idx, exit_idx)` exactly as the
source appends it.  The loop state holds `position` (0 flat, 1 long, -1 short),
`entry_idx` (initially the sentinel `-1`), `entry_price`, and the trades
emitted so far.
-/

abbrev BTTrade : Type := ℚ × ℤ × ℤ × ℤ

structure BTState where
  position : ℤ
  entry_idx : ℤ
  entry_price : ℚ
  trades : List BTTrade
  deriving DecidableEq, Repr

/-- The entry/exit `if/elif` chain of the loop body of `backtest_core`
(everything after the Friday force-close block); the test
`friday_close.getD i 0 = 1` is the loop's `is_friday_close_period`. -/
def btChain (bid ask midprice upper_band lower_band middle_band : List ℚ)
    (friday_close : List ℤ) (n i : ℕ) (s : BTState) : BTState :=
  if s.position = 0 ∧ ¬ friday_close.getD i 0 = 1 then
      if midprice.getD (i-1) 0 > lower_band.getD (i-1) 0 ∧
         midprice.getD i 0 < lower_band.getD i 0 then
        { s with position := 1, entry_idx := (i : ℤ) + 1,
                 entry_price := if i + 1 < n then ask.getD (i+1) 0 else s.entry_price }
      else if midprice.getD (i-1) 0 < upper_band.getD (i-1) 0 ∧
              midprice.getD i 0 > upper_band.getD i 0 then
        { s with position := -1, entry_idx := (i : ℤ) + 1,
                 entry_price := if i + 1 < n then bid.getD (i+1) 0 else s.entry_price }
      else s
    else if s.position = 1 then
      if midprice.getD (i-1) 0 < middle_band.getD (i-1) 0 ∧
         midprice.getD i 0 > middle_band.getD i 0 then
        { position := 0, entry_idx := -1, entry_price := 0,
          trades := s.trades ++
            (if i + 1 < n then
              [((bid.getD (i+1) 0 - s.entry_price) * 10000, 1, s.entry_idx, (i : ℤ) + 1)]
            else []) }
      else s
    else if s.position = -1 then
      if midprice.getD (i-1) 0 > middle_band.getD (i-1) 0 ∧
         midprice.getD i 0 < middle_band.getD i 0 then
        { position := 0, entry_idx := -1, entry_price := 0,
          trades := s.trades ++
            (if i + 1 < n then
              [((s.entry_price - ask.getD (i+1) 0) * 10000, -1, s.entry_idx, (i : ℤ) + 1)]
            else []) }
      else s
    else s

/-- One iteration of the `for i in range(1, n - 1)` loop of `backtest_core`:
the Friday force-close branch (whose `exit_idx < n` guard always holds for an
in-range `i`, and whose `continue` skips the rest of the body), otherwise the
entry/exit chain.  When the Friday branch is entered with `exit_idx ≥ n`
(unreachable), the source falls through to the chain, as here. -/
def btStep (bid ask midprice upper_band lower_band middle_band : List ℚ)
    (friday_close : List ℤ) (n i : ℕ) (s : BTState) : BTState :=
  if friday_close.getD i 0 = 1 ∧ s.position ≠ 0 ∧ i < n then
    if s.position = 1 then
      { position := 0, entry_idx := -1, entry_price := 0,
        trades := s.trades ++
          [((bid.getD i 0 - s.entry_price) * 10000, 1, s.entry_idx, (i : ℤ))] }
    else
      { position := 0, entry_idx := -1, entry_price := 0,
        trades := s.trades ++
          [((s.entry_price - ask.getD i 0) * 10000, -1, s.entry_idx, (i : ℤ))] }
  else btChain bid ask midprice upper_band lower_band middle_band friday_close n i s

/-- The end-of-data force close following the loop
(`if position == 1 and entry_idx < n: ...`). -/
def btFinalClose (bid ask : List ℚ) (n : ℕ) (s : BTState) : List BTTrade :=
  if s.position = 1 ∧ s.entry_idx < (n : ℤ) then
    s.trades ++ [((bid.getD (n-1) 0 - s.entry_price) * 10000, 1, s.entry_idx, (n : ℤ) - 1)]
  else if s.position = -1 ∧ s.entry_idx < (n : ℤ) then
    s.trades ++ [((s.entry_price - ask.getD (n-1) 0) * 10000, -1, s.entry_idx, (n : ℤ) - 1)]
  else s.trades

/-- `backtest_core` of `modules/backtester/backtest_engine.py`.  `dates_array`
is the optional per-bar Friday-closing flag array; `none` corresponds to the
Python default (an all-zero array). -/
def backtest_core (bid ask midprice upper_band lower_band middle_band : List ℚ)
    (dates_array : Option (List ℤ)) : List BTTrade :=
  btFinalClose bid ask midprice.length
    ((List.range' 1 (midprice.length - 2)).foldl
      (fun s i => btStep bid ask midprice upper_band lower_band middle_band
        (dates_array.getD (List.replicate midprice.length 0)) midprice.length i s)
      ⟨0, -1, 0, []⟩)

/-! ## Performance metrics: `_calculate_performance_metrics`

`np.cumsum`, `np.maximum.accumulate`, `np.max` and `np.min` on 1-d arrays,
then the statistics dictionary.  `np_max_opt`/`np_min_opt` return `none` on
the empty list (where NumPy/`max()` would raise), matching the source's
explicit emptiness guards.
-/

def cumsumAux (acc : ℚ) : List ℚ → List ℚ
  | [] => []
  | x :: xs => (acc + x) :: cumsumAux (acc + x) xs

/-- `np.cumsum`. -/
def np_cumsum (l : List ℚ) : List ℚ := cumsumAux 0 l

def runMaxAux (cur : ℚ) : List ℚ → List ℚ
  | [] => []
  | x :: xs => max cur x :: runMaxAux (max cur x) xs

/-- `np.maximum.accumulate`. -/
def running_max : List ℚ → List ℚ
  | [] => []
  | x :: xs => x :: runMaxAux x xs

/-- `drawdown = running_max - cumulative_pnl` for a list of per-trade PnLs. -/
def drawdown_series (pnl_values : List ℚ) : List ℚ :=
  List.zipWith (· - ·) (running_max (np_cumsum pnl_values)) (np_cumsum pnl_values)

def np_max_opt : List ℚ → Option ℚ
  | [] => none
  | x :: xs => some (xs.foldl max x)

def np_min_opt : List ℚ → Option ℚ
  | [] => none
  | x :: xs => some (xs.foldl min x)

/-- `Backtest._calculate_performance_metrics` as a pure function of the trade
list, returning the statistics dictionary as an association list in source
order.  Note that the `if not self.results` branch of the source omits the
`best_trade` and `worst_trade` keys. -/
def calculate_performance_metrics (results : List BTTrade) : List (String × ℚ) :=
  if results = [] then
    [("total_trades", 0), ("total_pnl", 0), ("average_trade", 0), ("win_rate", 0),
     ("max_drawdown", 0), ("winning_trades", 0), ("losing_trades", 0)]
  else
    let pnl_values := results.map (fun t => t.1)
    let total_trades : ℚ := results.length
    let total_pnl := pnl_values.sum
    let average_trade := if 0 < total_trades then total_pnl / total_trades else 0
    let winning_trades : ℚ := (pnl_values.filter (fun p => 0 < p)).length
    let losing_trades : ℚ := (pnl_values.filter (fun p => p < 0)).length
    let win_rate := if 0 < total_trades then winning_trades / total_trades * 100 else 0
    let max_drawdown := (np_max_opt (drawdown_series pnl_values)).getD 0
    [("total_trades", total_trades), ("total_pnl", total_pnl),
     ("average_trade", average_trade), ("win_rate", win_rate),
     ("max_drawdown", max_drawdown), ("winning_trades", winning_trades),
     ("losing_trades", losing_trades),
     ("best_trade", (np_max_opt pnl_values).getD 0),
     ("worst_trade", (np_min_opt pnl_values).getD 0)]

/-! ## Walk-forward optimization: period windows

`walk_forward_optimization` iterates `while start_idx + interval < data_length`
and, at every iteration, computes
`opt_start_idx = start_idx - lookback`, `opt_end_idx = start_idx`,
`trade_start_idx = start_idx`,
`trade_end_idx = min(start_idx + interval, data_length)`,
then advances `start_idx` by `interval`.  Periods that are later skipped
(empty grid results, fewer than 10 usable trading rows, caught exceptions) are
a subset of this candidate list with identical index tuples, so any recorded
period appears in `walk_forward_periods` below.  The recursion is driven by a
fuel argument; since the source advances `start_idx` by `interval ≥ 1` each
iteration, `data_length + 1` units of fuel are never exhausted.
-/

structure WFPeriod where
  opt_start : ℕ
  opt_end : ℕ
  trade_start : ℕ
  trade_end : ℕ
  deriving DecidableEq, Repr

def wfoLoop (lookback_minutes interval_minutes data_length : ℕ) :
    ℕ → ℕ → List WFPeriod
  | _, 0 => []
  | start_idx, fuel + 1 =>
    if start_idx + interval_minutes < data_length then
      ⟨start_idx - lookback_minutes, start_idx, start_idx,
        min (start_idx + interval_minutes) data_length⟩ ::
        wfoLoop lookback_minutes interval_minutes data_length
          (start_idx + interval_minutes) fuel
    else []

/-- The list of candidate walk-forward periods generated by the main loop of
`walk_forward_optimization`, for `lookback_days`/`optimization_interval_days`
(converted to minutes as in the source) on `data_length` bars. -/
def walk_forward_periods (lookback_days optimization_interval_days data_length : ℕ) :
    List WFPeriod :=
  let lookback_minutes := lookback_days * 24 * 60
  let interval_minutes := optimization_interval_days * 24 * 60
  wfoLoop lookback_minutes interval_minutes data_length lookback_minutes (data_length + 1)

/-! ## Allocation policies

The three weight functions of `dynamic_portfolio_modules/utils.py` are
polymorphic over a linear ordered field so that the rational ones can be
evaluated exactly at `ℚ` while the dispatch used by the rebalancer
instantiates them at `ℝ`.  A returns matrix is a list of rows (days), each a
list of per-strategy daily returns.
-/

section Policies

variable {K : Type*} [LinearOrderedField K]

/-- Column `i` of a returns matrix (`returns_matrix[:, i]`). -/
def matrix_column (returns_matrix : List (List K)) (i : ℕ) : List K :=
  returns_matrix.map (fun row => row.getD i 0)

/-- `np.prod(1 + col) - 1`: the cumulative return of one strategy. -/
def cum_return (col : List K) : K := (col.map (fun r => 1 + r)).prod - 1

/-- `np.min` on a nonempty array (junk value 0 on the empty list, which the
embedded callers never pass). -/
def np_min : List K → K
  | [] => 0
  | x :: xs => xs.foldl min x

/-- `np.max` on a nonempty array (junk value 0 on the empty list). -/
def np_max : List K → K
  | [] => 0
  | x :: xs => xs.foldl max x

/-- `normalize_scores` of `utils.py` (min-max normalization; equal weights
when all values coincide). -/
def normalize_scores (returns : List K) : List K :=
  if returns.length = 0 then returns
  else
    let min_val := np_min returns
    let max_val := np_max returns
    if max_val = min_val then returns.map (fun _ => 1 / (returns.length : K))
    else returns.map (fun x => (x - min_val) / (max_val - min_val))

/-- The exclusion/normalization pipeline that `calculate_momentum_weights` and
`calculate_sharpe_momentum_weights` both contain verbatim, as a function of
the score vector (cumulative returns resp. Sharpe ratios): return all zeros if
no score is positive, else zero out non-positive scores, `normalize_scores`,
re-mask, and divide by the total if it is positive. -/
def exclusion_pipeline (scores : List K) : List K :=
  if ∀ c ∈ scores, ¬ (0 < c) then List.replicate scores.length 0
  else
    let filtered := scores.map (fun c => if 0 < c then c else 0)
    let w1 := normalize_scores filtered
    let w2 := List.zipWith (fun c w => if 0 < c then w else 0) scores w1
    let total := w2.sum
    if 0 < total then w2.map (· / total) else w2

/-- `calculate_momentum_weights` of `utils.py`.  `n_assets` is
`returns_matrix.shape[1]`. -/
def calculate_momentum_weights (n_assets : ℕ) (returns_matrix : List (List K))
    (lookback : ℕ) : List K :=
  if returns_matrix.length < lookback then
    List.replicate n_assets (1 / (n_assets : K))
  else
    exclusion_pipeline
      ((List.range n_assets).map (fun i => cum_return (matrix_column returns_matrix i)))

/-- Stable insertion of an index into a list of indices sorted by score in
decreasing order (used to model `np.argsort(cum_returns)[::-1]`; the claims
proved below do not depend on the order among tied scores). -/
def insert_desc (scores : List K) (i : ℕ) : List ℕ → List ℕ
  | [] => [i]
  | j :: rest =>
    if scores.getD j 0 < scores.getD i 0 then i :: j :: rest
    else j :: insert_desc scores i rest

def sort_desc (scores : List K) : List ℕ → List ℕ
  | [] => []
  | i :: is' => insert_desc scores i (sort_desc scores is')

/-- Indices `0, …, scores.length - 1` sorted by score, largest first
(`np.argsort(...)[::-1]`). -/
def argsort_desc (scores : List K) : List ℕ :=
  sort_desc scores (List.range scores.length)

/-- The selection loop of `calculate_top_n_ranking_weights`: walk the sorted
indices, keeping those with a positive score until `n_top` are collected. -/
def take_top (scores : List K) (n_top : ℕ) (sorted_indices : List ℕ) : List ℕ :=
  sorted_indices.foldl
    (fun acc idx =>
      if 0 < scores.getD idx 0 ∧ acc.length < n_top then acc ++ [idx] else acc)
    []

/-- `calculate_top_n_ranking_weights` of `utils.py`; the source's default
argument `n_top=5` is passed explicitly by the dispatch below. -/
def calculate_top_n_ranking_weights (n_assets : ℕ) (returns_matrix : List (List K))
    (lookback : ℕ) (n_top : ℕ) : List K :=
  if returns_matrix.length < lookback then
    List.replicate n_assets (1 / (n_assets : K))
  else
    let cum_returns :=
      (List.range n_assets).map (fun i => cum_return (matrix_column returns_matrix i))
    if ∀ c ∈ cum_returns, ¬ (0 < c) then List.replicate n_assets 0
    else
      let top_indices := take_top cum_returns n_top (argsort_desc cum_returns)
      if top_indices = [] then List.replicate n_assets 0
      else
        (List.range n_assets).map
          (fun i => if i ∈ top_indices then 1 / (top_indices.length : K) else 0)

/-- `DynamicPortfolioRebalancer._calculate_equal_weights_exclude_losing`:
operates on the full returns matrix and the current day index, slicing
`returns_matrix[current_day-lookback:current_day]` itself. -/
def calculate_equal_weights_exclude_losing (n_assets : ℕ)
    (returns_matrix : List (List K)) (current_day lookback : ℕ) : List K :=
  if current_day < lookback then List.replicate n_assets (1 / (n_assets : K))
  else
    let recent := (returns_matrix.take current_day).drop (current_day - lookback)
    let cum_returns :=
      (List.range n_assets).map (fun i => cum_return (matrix_column recent i))
    let n_profitable := cum_returns.countP (fun c => decide (0 < c))
    if n_profitable = 0 then List.replicate n_assets 0
    else
      cum_returns.map (fun c => if 0 < c then 1 / (n_profitable : K) else 0)

end Policies

/-! ### Real-valued policies (Sharpe momentum and risk parity)

These two genuinely take square roots (`np.sqrt(252)`, `np.std`), so they are
embedded at `ℝ` using `Real.sqrt`.
-/

/-- `np.mean`. -/
noncomputable def np_mean (col : List ℝ) : ℝ := col.sum / (col.length : ℝ)

/-- `np.std` (population standard deviation, `ddof=0`). -/
noncomputable def np_std (col : List ℝ) : ℝ :=
  Real.sqrt ((col.map (fun x => (x - np_mean col) ^ 2)).sum / (col.length : ℝ))

/-- The annualized Sharpe ratio of one strategy's lookback returns as computed
inside `calculate_sharpe_momentum_weights`
(`mean*252 / (std*sqrt(252))` when `std > 0`, else `0`). -/
noncomputable def sharpe_score (col : List ℝ) : ℝ :=
  if 0 < np_std col then (np_mean col * 252) / (np_std col * Real.sqrt 252) else 0

/-- `calculate_sharpe_momentum_weights` of `utils.py`: the same
exclusion/normalization pipeline as `calculate_momentum_weights`, applied to
the vector of annualized Sharpe ratios. -/
noncomputable def calculate_sharpe_momentum_weights (n_assets : ℕ)
    (returns_matrix : List (List ℝ)) (lookback : ℕ) : List ℝ :=
  if returns_matrix.length < lookback then
    List.replicate n_assets (1 / (n_assets : ℝ))
  else
    exclusion_pipeline
      ((List.range n_assets).map (fun i => sharpe_score (matrix_column returns_matrix i)))

/-- `DynamicPortfolioRebalancer._calculate_risk_parity_weights`.  The source's
`np.inf` masking (`masked = where(profitable & vol>0, vol, inf)`;
`inv = where(masked < inf, 1/masked, 0)`) collapses to: inverse volatility for
profitable strategies with positive volatility, `0` otherwise. -/
noncomputable def calculate_risk_parity_weights (n_assets : ℕ)
    (returns_matrix : List (List ℝ)) (current_day lookback : ℕ) : List ℝ :=
  if current_day < lookback then List.replicate n_assets (1 / (n_assets : ℝ))
  else
    let recent := (returns_matrix.take current_day).drop (current_day - lookback)
    let cum_returns :=
      (List.range n_assets).map (fun i => cum_return (matrix_column recent i))
    let volatilities :=
      (List.range n_assets).map (fun i => np_std (matrix_column recent i))
    if ∀ c ∈ cum_returns, ¬ (0 < c) then List.replicate n_assets 0
    else
      let inv_vol :=
        (List.range n_assets).map
          (fun i =>
            if 0 < cum_returns.getD i 0 ∧ 0 < volatilities.getD i 0 then
              1 / volatilities.getD i 0
            else 0)
      let total_inv_vol := inv_vol.sum
      if 0 < total_inv_vol then inv_vol.map (· / total_inv_vol)
      else List.replicate n_assets 0

/-- The five rebalance methods accepted by
`DynamicPortfolioRebalancer.backtest_strategy`. -/
inductive RebalanceMethod
  | momentum
  | sharpe_momentum
  | top_n_ranking
  | equal
  | risk_parity
  deriving DecidableEq, Repr

/-- `DynamicPortfolioRebalancer._calculate_weights`: the three `utils.py`
policies receive the slice `returns_matrix[max(0, current_day-lookback):current_day]`
(in ℕ, `current_day - lookback` already truncates at 0), the two methods of
the class receive the full matrix and the day index. -/
noncomputable def rebalancer_calculate_weights (n_assets : ℕ)
    (returns_matrix : List (List ℝ)) (current_day lookback : ℕ) :
    RebalanceMethod → List ℝ
  | .momentum =>
      calculate_momentum_weights n_assets
        ((returns_matrix.take current_day).drop (current_day - lookback)) lookback
  | .sharpe_momentum =>
      calculate_sharpe_momentum_weights n_assets
        ((returns_matrix.take current_day).drop (current_day - lookback)) lookback
  | .top_n_ranking =>
      calculate_top_n_ranking_weights n_assets
        ((returns_matrix.take current_day).drop (current_day - lookback)) lookback 5
  | .equal =>
      calculate_equal_weights_exclude_losing n_assets returns_matrix current_day lookback
  | .risk_parity =>
      calculate_risk_parity_weights n_assets returns_matrix current_day lookback

/-! ## The Sunday rebalance schedule of `backtest_strategy`

`weekdays` is the list of `self.dates[i].weekday()` values (`6` = Sunday).
-/

/-- The `while start_idx < n_days: if weekday == 6: break` search for the
first Sunday at or after `lookback` (returns `n_days` when no Sunday exists,
like the exhausted `while` loop).  Fuel-driven; `n_days + 1` units suffice
since `start_idx` increases each iteration. -/
def findStartLoop (weekdays : List ℕ) (n_days : ℕ) : ℕ → ℕ → ℕ
  | s, 0 => s
  | s, fuel + 1 =>
    if s < n_days then
      if weekdays.getD s 0 = 6 then s else findStartLoop weekdays n_days (s + 1) fuel
    else s

def first_rebalance_start (weekdays : List ℕ) (lookback : ℕ) : ℕ :=
  findStartLoop weekdays weekdays.length lookback (weekdays.length + 1)

/-- The `for i in range(start_idx, n_days, 7)` loop collecting rebalance
indices.  At each landed index `i` the source takes `i` itself if it is a
Sunday and otherwise searches `range(i, min(i+7, n_days))` for the nearest
Sunday (skipping the cycle when none is found); both cases are the first
Sunday of `[i, min(i+7, n_days))`.  Reassigning the Python loop variable
inside the body does not alter the iteration sequence, so the next landed
index is always `i + 7`. -/
def sundayEpochsLoop (weekdays : List ℕ) (n_days : ℕ) : ℕ → ℕ → List ℕ
  | _, 0 => []
  | i, fuel + 1 =>
    if i < n_days then
      match (List.range' i (min (i + 7) n_days - i)).find?
          (fun j => weekdays.getD j 0 == 6) with
      | some j => j :: sundayEpochsLoop weekdays n_days (i + 7) fuel
      | none => sundayEpochsLoop weekdays n_days (i + 7) fuel
    else []

/-- `rebalance_dates_idx` as collected by the schedule loop of
`backtest_strategy` (before the empty-history fallback). -/
def rebalance_dates_idx (weekdays : List ℕ) (lookback : ℕ) : List ℕ :=
  sundayEpochsLoop weekdays weekdays.length
    (first_rebalance_start weekdays lookback) (weekdays.length + 1)

/-- The final recorded rebalance index list: the source replaces an empty
list by `[lookback_days]` in the no-epoch fallback. -/
def final_rebalance_dates_idx (weekdays : List ℕ) (lookback : ℕ) : List ℕ :=
  let e := rebalance_dates_idx weekdays lookback
  if e = [] then [lookback] else e

/-- `weights_history` of `backtest_strategy`: one weight vector per rebalance
epoch, or the single equal-weight vector when no epoch was found. -/
noncomputable def backtest_weights_history (n_assets : ℕ)
    (returns_matrix : List (List ℝ)) (weekdays : List ℕ) (lookback : ℕ)
    (method : RebalanceMethod) : List (List ℝ) :=
  let hist := (rebalance_dates_idx weekdays lookback).map
    (fun i => rebalancer_calculate_weights n_assets returns_matrix i lookback method)
  if hist = [] then [List.replicate n_assets (1 / (n_assets : ℝ))] else hist

/-! ## `_calculate_portfolio_performance`

The compounding loop carries `(current_weights, rebal_idx)`; on each day it
first rebalances if the day is a recorded rebalance index, then applies the
current weights.
-/

/-- `np.dot` of a weight vector and one day's returns row. -/
def np_dot (w row : List ℝ) : ℝ := (List.zipWith (· * ·) w row).sum

/-- The initial `current_weights`:
`weights_history[0] if len(weights_history) > 0 else ones(n)/n`. -/
noncomputable def initial_weights (n_assets : ℕ) (weights_history : List (List ℝ)) :
    List ℝ :=
  if weights_history ≠ [] then weights_history.getD 0 []
  else List.replicate n_assets (1 / (n_assets : ℝ))

/-- The rebalance-check at the top of the day loop
(`if day in rebalance_dates_idx and rebal_idx < len(weights_history)`). -/
def portfolio_step (weights_history : List (List ℝ)) (rebalance_idx : List ℕ)
    (day : ℕ) (st : List ℝ × ℕ) : List ℝ × ℕ :=
  if day ∈ rebalance_idx ∧ st.2 < weights_history.length then
    (weights_history.getD st.2 [], st.2 + 1)
  else st

/-- The `(current_weights, rebal_idx)` state at the start of day `day`. -/
noncomputable def portfolio_state_before (n_assets : ℕ)
    (weights_history : List (List ℝ)) (rebalance_idx : List ℕ) :
    ℕ → List ℝ × ℕ
  | 0 => (initial_weights n_assets weights_history, 0)
  | day + 1 =>
    portfolio_step weights_history rebalance_idx day
      (portfolio_state_before n_assets weights_history rebalance_idx day)

/-- The weight vector actually applied to `returns_matrix[day]`. -/
noncomputable def weights_used_on (n_assets : ℕ) (weights_history : List (List ℝ))
    (rebalance_idx : List ℕ) (day : ℕ) : List ℝ :=
  (portfolio_step weights_history rebalance_idx day
    (portfolio_state_before n_assets weights_history rebalance_idx day)).1

/-- The `portfolio_returns` array of `_calculate_portfolio_performance`. -/
noncomputable def portfolio_returns (n_assets : ℕ) (returns_matrix : List (List ℝ))
    (weights_history : List (List ℝ)) (rebalance_idx : List ℕ) : List ℝ :=
  (List.range returns_matrix.length).map
    (fun day =>
      np_dot (weights_used_on n_assets weights_history rebalance_idx day)
        (returns_matrix.getD day []))

/-- The `portfolio_value` array (`value[0] = 1`,
`value[d+1] = value[d] * (1 + daily_return)`). -/
noncomputable def portfolio_values (n_assets : ℕ) (returns_matrix : List (List ℝ))
    (weights_history : List (List ℝ)) (rebalance_idx : List ℕ) : List ℝ :=
  (List.range (returns_matrix.length + 1)).map
    (fun d =>
      ((portfolio_returns n_assets returns_matrix weights_history rebalance_idx).take d).foldl
        (fun v r => v * (1 + r)) 1)

/-! ## Linearity metrics: `calculate_linearity_metrics`

The value series is fit by ordinary least squares against the bar index
`x = arange(n)`.  `r2_score` follows scikit-learn (including its convention
for a zero total sum of squares), `pearson_r` follows `scipy.stats.pearsonr`.
`residual_std` is `Option ℝ`, with `none` modelling `float('inf')`.
-/

/-- `x = np.arange(len(values))` as a real list. -/
def idx_list (n : ℕ) : List ℝ := (List.range n).map (fun i : ℕ => (i : ℝ))

/-- Deviations of a list from its mean. -/
noncomputable def dev (l : List ℝ) : List ℝ := l.map (fun a => a - np_mean l)

/-- `Σ (x-x̄)(y-ȳ)`. -/
noncomputable def dev_prod_sum (x y : List ℝ) : ℝ :=
  (List.zipWith (· * ·) (dev x) (dev y)).sum

/-- `Σ (l-l̄)²`. -/
noncomputable def dev_sq_sum (l : List ℝ) : ℝ := ((dev l).map (fun a => a ^ 2)).sum

/-- The OLS slope fitted by `LinearRegression` on `(x, values)`. -/
noncomputable def ols_slope (values : List ℝ) : ℝ :=
  dev_prod_sum (idx_list values.length) values / dev_sq_sum (idx_list values.length)

/-- The OLS predictions `reg.predict(x)`
(`ŷᵢ = ȳ + slope·(xᵢ - x̄)`). -/
noncomputable def ols_predictions (values : List ℝ) : List ℝ :=
  (idx_list values.length).map
    (fun xi => np_mean values + ols_slope values * (xi - np_mean (idx_list values.length)))

/-- `sklearn.metrics.r2_score`:
`1 - Σ(y-ŷ)²/Σ(y-ȳ)²`, with the degenerate convention `1` (perfect) when both
sums vanish and `0` when only the denominator vanishes. -/
noncomputable def r2_score (y_true y_pred : List ℝ) : ℝ :=
  let ss_res := (List.zipWith (fun a b => (a - b) ^ 2) y_true y_pred).sum
  let ss_tot := dev_sq_sum y_true
  if ss_tot = 0 then (if ss_res = 0 then 1 else 0) else 1 - ss_res / ss_tot

/-- `scipy.stats.pearsonr(x, y)[0] = Σ(x-x̄)(y-ȳ) / (‖x-x̄‖·‖y-ȳ‖)`. -/
noncomputable def pearson_r (x y : List ℝ) : ℝ :=
  dev_prod_sum x y / (Real.sqrt (dev_sq_sum x) * Real.sqrt (dev_sq_sum y))

structure LinearityMetrics where
  r_squared : ℝ
  correlation : ℝ
  linearity_score : ℝ
  slope : ℝ
  residual_std : Option ℝ

/-- `calculate_linearity_metrics` of `linearity_analysis.py`.  Series shorter
than 10 yield the degenerate all-zero record with infinite (`none`)
`residual_std`. -/
noncomputable def calculate_linearity_metrics (portfolio_values_series : List ℝ) :
    LinearityMetrics :=
  if portfolio_values_series.length < 10 then ⟨0, 0, 0, 0, none⟩
  else
    let values := portfolio_values_series
    let y_pred := ols_predictions values
    let r_squared := r2_score values y_pred
    let correlation := pearson_r (idx_list values.length) values
    let residuals := List.zipWith (· - ·) values y_pred
    ⟨r_squared, correlation, r_squared * max 0 correlation, ols_slope values,
      if np_mean values ≠ 0 then some (np_std residuals / np_mean values) else none⟩

/-! ## Reference definitions for the Momentum policy (claim C5)

`spec_momentum_weights` transcribes the specification's words: exclude
strategies with cumulative return ≤ 0, min-max normalize **only the remaining
positive values**, renormalize those to sum 1, all-zero when none is
positive.  (On the counterexample input below every step is unambiguous.)

`momentum_weights_amended` transcribes the amended description of the code's
behaviour: min-max normalization is applied to the score vector in which
excluded strategies are assigned score 0 — so its minimum is 0 as soon as at
least one strategy is excluded, and a positive strategy holding the minimum of
the normalization range receives weight 0 — with uniform weights over all
strategies when every score coincides; the masked result is renormalized to
sum 1.
-/

def spec_momentum_weights (n_assets : ℕ) (returns_matrix : List (List ℚ))
    (lookback : ℕ) : List ℚ :=
  if returns_matrix.length < lookback then
    List.replicate n_assets (1 / (n_assets : ℚ))
  else
    let cum_returns :=
      (List.range n_assets).map (fun i => cum_return (matrix_column returns_matrix i))
    let positives := cum_returns.filter (fun c => decide (0 < c))
    if positives = [] then List.replicate n_assets 0
    else
      let lo := np_min positives
      let hi := np_max positives
      let normalized :=
        cum_returns.map (fun c => if 0 < c then (c - lo) / (hi - lo) else 0)
      let total := normalized.sum
      if 0 < total then normalized.map (· / total) else normalized

def momentum_weights_amended (n_assets : ℕ) (returns_matrix : List (List ℚ))
    (lookback : ℕ) : List ℚ :=
  if returns_matrix.length < lookback then
    List.replicate n_assets (1 / (n_assets : ℚ))
  else
    let cum_returns :=
      (List.range n_assets).map (fun i => cum_return (matrix_column returns_matrix i))
    if ∀ c ∈ cum_returns, ¬ (0 < c) then List.replicate n_assets 0
    else
      let scores := cum_returns.map (fun c => if 0 < c then c else 0)
      let lo := np_min scores
      let hi := np_max scores
      let raw :=
        if hi = lo then cum_returns.map (fun c => if 0 < c then 1 / (n_assets : ℚ) else 0)
        else cum_returns.map (fun c => if 0 < c then (c - lo) / (hi - lo) else 0)
      raw.map (· / raw.sum)

/-- The loop invariant of `backtest_core`: every trade emitted so far has
`entry_idx ≤ exit_idx` and direction `±1`, and while a position is open its
entry index is at most the index about to be processed. -/
def btInv (i : ℕ) (s : BTState) : Prop :=
  (∀ t ∈ s.trades, t.2.2.1 ≤ t.2.2.2 ∧ (t.2.1 = 1 ∨ t.2.1 = -1)) ∧
  (s.position ≠ 0 → s.entry_idx ≤ (i : ℤ))

/-! # Theorems -/

section BacktestTheorems

variable {bid ask midprice upper_band lower_band middle_band : List ℚ}
variable {friday_close : List ℤ} {n : ℕ}

theorem btChain_inv {i : ℕ} {s : BTState} (h : btInv i s) :
    btInv (i + 1)
      (btChain bid ask midprice upper_band lower_band middle_band friday_close n i s) := by
  obtain ⟨htr, hpos⟩ := h
  unfold btChain
  split_ifs
  all_goals first
    | (refine ⟨htr, fun _ => ?_⟩
       show (i : ℤ) + 1 ≤ ((i + 1 : ℕ) : ℤ)
       push_cast
       omega)
    | (refine ⟨htr, fun hp => ?_⟩
       show s.entry_idx ≤ ((i + 1 : ℕ) : ℤ)
       have := hpos hp
       push_cast
       omega)
    | (refine ⟨?_, by simp⟩
       intro t ht
       simp only [List.append_nil, List.mem_append, List.mem_singleton] at ht
       first
         | exact htr t ht
         | (rcases ht with ht | ht
            · exact htr t ht
            · subst ht
              refine ⟨?_, by simp⟩
              show s.entry_idx ≤ (i : ℤ) + 1
              have := hpos (by omega)
              omega))

theorem btStep_inv {i : ℕ} {s : BTState} (h : btInv i s) :
    btInv (i + 1)
      (btStep bid ask midprice upper_band lower_band middle_band friday_close n i s) := by
  obtain ⟨htr, hpos⟩ := h
  unfold btStep
  split_ifs with h1 h2
  · refine ⟨?_, by simp⟩
    intro t ht
    simp only [List.mem_append, List.mem_singleton] at ht
    rcases ht with ht | ht
    · exact htr t ht
    · subst ht
      have he := hpos h1.2.1
      refine ⟨?_, Or.inl rfl⟩
      show s.entry_idx ≤ (i : ℤ)
      omega
  · refine ⟨?_, by simp⟩
    intro t ht
    simp only [List.mem_append, List.mem_singleton] at ht
    rcases ht with ht | ht
    · exact htr t ht
    · subst ht
      have he := hpos h1.2.1
      refine ⟨?_, Or.inr rfl⟩
      show s.entry_idx ≤ (i : ℤ)
      omega
  · exact btChain_inv ⟨htr, hpos⟩

theorem foldl_btStep_inv (m : ℕ) :
    ∀ (j : ℕ) (s : BTState), btInv j s →
      btInv (j + m)
        ((List.range' j m).foldl
          (fun s i => btStep bid ask midprice upper_band lower_band middle_band
            friday_close n i s) s) := by
  induction m with
  | zero => intro j s h; simpa using h
  | succ m ih =>
    intro j s h
    rw [List.range'_succ]
    simp only [List.foldl_cons]
    have h' : btInv (j + 1)
        (btStep bid ask midprice upper_band lower_band middle_band friday_close n j s) :=
      btStep_inv h
    have := ih (j + 1) _ h'
    have heq : j + 1 + m = j + (m + 1) := by omega
    rwa [heq] at this

/-- **C2 (amended)**: every trade returned by `backtest_core`, for any input
arrays and any Friday-close flag array, has `entry_idx ≤ exit_idx` and
direction `+1` or `-1`.  (The claim's strict inequality fails: a position
opened on the penultimate processed bar, or closed by the Friday force-close
on its own entry bar, yields `entry_idx = exit_idx`; see the
counterexample.) -/
theorem backtest_core_trades_sound
    (bid ask midprice upper_band lower_band middle_band : List ℚ)
    (dates_array : Option (List ℤ)) :
    ∀ t ∈ backtest_core bid ask midprice upper_band lower_band middle_band dates_array,
      t.2.2.1 ≤ t.2.2.2 ∧ (t.2.1 = 1 ∨ t.2.1 = -1) := by
  intro t ht
  unfold backtest_core at ht
  set n := midprice.length with hn
  set fc := dates_array.getD (List.replicate n 0) with hfc
  set sf := (List.range' 1 (n - 2)).foldl
    (fun s i => btStep bid ask midprice upper_band lower_band middle_band fc n i s)
    (⟨0, -1, 0, []⟩ : BTState) with hsf
  rcases Nat.lt_or_ge n 2 with hn2 | hn2
  · have hr : List.range' 1 (n - 2) = [] := by
      have : n - 2 = 0 := by omega
      rw [this]; rfl
    have hsf0 : sf = ⟨0, -1, 0, []⟩ := by rw [hsf, hr]; rfl
    rw [hsf0] at ht
    simp [btFinalClose] at ht
  · have hinv : btInv (1 + (n - 2)) sf :=
      foldl_btStep_inv (n - 2) 1 ⟨0, -1, 0, []⟩ (by constructor <;> simp)
    obtain ⟨htr, hpos⟩ := hinv
    have hbound : ∀ hp : sf.position ≠ 0, sf.entry_idx ≤ (n : ℤ) - 1 := by
      intro hp
      have := hpos hp
      have hcast : ((1 + (n - 2) : ℕ) : ℤ) = (n : ℤ) - 1 := by
        push_cast [Nat.cast_sub hn2]
        omega
      omega
    unfold btFinalClose at ht
    split_ifs at ht with h1 h2
    · simp only [List.mem_append, List.mem_singleton] at ht
      rcases ht with ht | ht
      · exact htr t ht
      · subst ht
        have he := hbound (by rw [h1.1]; norm_num)
        exact ⟨by show sf.entry_idx ≤ (n : ℤ) - 1; omega, Or.inl rfl⟩
    · simp only [List.mem_append, List.mem_singleton] at ht
      rcases ht with ht | ht
      · exact htr t ht
      · subst ht
        have he := hbound (by rw [h2.1]; norm_num)
        exact ⟨by show sf.entry_idx ≤ (n : ℤ) - 1; omega, Or.inr rfl⟩
    · exact htr t ht

end BacktestTheorems

section ClaimC2Extras

/-- **C2 counterexample**: with three bars and a long-entry cross on bar 1,
the position is opened at bar 2 (`entry_idx = 2`) and force-closed at the end
of data at bar `n-1 = 2`, producing a trade with `entry_idx = exit_idx`, so
`entryIndex < exitIndex` fails. -/
theorem backtest_core_entry_lt_exit_fails :
    ∃ t ∈ backtest_core [1, 1, 1] [1, 1, 2] [1, -1, 0] [10, 10, 10] [0, 0, 0] [5, 5, 5] none,
      ¬ t.2.2.1 < t.2.2.2 := by
  refine ⟨((-10000 : ℚ), 1, 2, 2), ?_, by decide⟩
  have : backtest_core [1, 1, 1] [1, 1, 2] [1, -1, 0] [10, 10, 10] [0, 0, 0] [5, 5, 5] none
      = [((-10000 : ℚ), 1, 2, 2)] := by
    norm_num [backtest_core, btStep, btChain, btFinalClose, List.range', List.getD]
  rw [this]
  exact List.mem_singleton.mpr rfl

/-- Witness for `backtest_core_trades_sound` at the concrete counterexample
run: its single trade `(-10000, 1, 2, 2)` satisfies the amended bound. -/
theorem backtest_core_trades_sound_witness :
    ((-10000 : ℚ), (1 : ℤ), (2 : ℤ), (2 : ℤ)).2.2.1 ≤ ((-10000 : ℚ), (1 : ℤ), (2 : ℤ), (2 : ℤ)).2.2.2 ∧
      (((-10000 : ℚ), (1 : ℤ), (2 : ℤ), (2 : ℤ)).2.1 = 1 ∨
        ((-10000 : ℚ), (1 : ℤ), (2 : ℤ), (2 : ℤ)).2.1 = -1) :=
  backtest_core_trades_sound [1, 1, 1] [1, 1, 2] [1, -1, 0] [10, 10, 10] [0, 0, 0] [5, 5, 5]
    none ((-10000 : ℚ), 1, 2, 2)
    (by
      have : backtest_core [1, 1, 1] [1, 1, 2] [1, -1, 0] [10, 10, 10] [0, 0, 0] [5, 5, 5] none
          = [((-10000 : ℚ), 1, 2, 2)] := by
        norm_num [backtest_core, btStep, btChain, btFinalClose, List.range', List.getD]
      rw [this]
      exact List.mem_singleton.mpr rfl)

end ClaimC2Extras

section ClaimC3

/-- **C3**: at any in-range bar `i` whose Friday-closing flag is `1`, the loop
body of `backtest_core` with an open position emits exactly one forced-close
trade — priced at `bid[i]` for a long, `ask[i]` for a short, with
`exit_idx = i` — and resets the state to flat (so no entry happens on bar
`i`); with no open position it does nothing at all (entries are skipped on
flagged bars). -/
theorem btStep_friday_close
    (bid ask midprice upper_band lower_band middle_band : List ℚ)
    (friday_close : List ℤ) (n i : ℕ) (s : BTState)
    (hf : friday_close.getD i 0 = 1) (hi : i < n) :
    (s.position ≠ 0 →
      btStep bid ask midprice upper_band lower_band middle_band friday_close n i s =
        { position := 0, entry_idx := -1, entry_price := 0,
          trades := s.trades ++
            [if s.position = 1 then
              ((bid.getD i 0 - s.entry_price) * 10000, 1, s.entry_idx, (i : ℤ))
            else
              ((s.entry_price - ask.getD i 0) * 10000, -1, s.entry_idx, (i : ℤ))] }) ∧
    (s.position = 0 →
      btStep bid ask midprice upper_band lower_band middle_band friday_close n i s = s) := by
  constructor
  · intro hp
    unfold btStep
    rw [if_pos ⟨hf, hp, hi⟩]
    split_ifs with h1 <;> rfl
  · intro hp
    unfold btStep btChain
    rw [if_neg (fun h => h.2.1 hp), if_neg (fun h => h.2 hf),
      if_neg (fun h => by rw [hp] at h; exact absurd h (by decide)),
      if_neg (fun h => by rw [hp] at h; exact absurd h (by decide))]

/-- Witness for `btStep_friday_close`: a flagged bar 1 with an open long
position is force-closed at `bid[1]` and the state reset to flat. -/
theorem btStep_friday_close_witness :
    btStep [3, 4] [5, 6] [0, 0] [9, 9] [-9, -9] [1, 1] [0, 1] 2 1
        ⟨1, 1, (7 : ℚ), []⟩ =
      { position := 0, entry_idx := -1, entry_price := 0,
        trades := [if (1 : ℤ) = 1 then (((4 : ℚ) - 7) * 10000, 1, (1 : ℤ), (1 : ℤ))
          else ((7 - (6 : ℚ)) * 10000, -1, (1 : ℤ), (1 : ℤ))] } := by
  have h := (btStep_friday_close [3, 4] [5, 6] [0, 0] [9, 9] [-9, -9] [1, 1] [0, 1] 2 1
    ⟨1, 1, (7 : ℚ), []⟩ (by decide) (by decide)).1 (by decide)
  simpa using h

end ClaimC3

section ClaimC1

theorem wfoLoop_windows (lb iv n : ℕ) :
    ∀ (fuel start : ℕ), ∀ p ∈ wfoLoop lb iv n start fuel,
      p.trade_start = p.opt_end ∧
        ∀ i j : ℕ, p.opt_start ≤ i → i < p.opt_end → p.trade_start ≤ j → j < p.trade_end →
          i < j := by
  intro fuel
  induction fuel with
  | zero => intro start p hp; simp [wfoLoop] at hp
  | succ fuel ih =>
    intro start p hp
    rw [wfoLoop] at hp
    split_ifs at hp with hcond
    · rcases List.mem_cons.mp hp with rfl | hp
      · exact ⟨rfl, fun i j _ hi hj _ => lt_of_lt_of_le hi hj⟩
      · exact ih (start + iv) p hp
    · simp at hp

/-- **C1**: every candidate (hence every recorded) walk-forward period has
`trade_start = opt_end` (the two windows are back-to-back: zero gap, zero
overlap), and every bar index of the optimization window is strictly smaller
than every bar index of the trading window. -/
theorem walk_forward_period_windows
    (lookback_days optimization_interval_days data_length : ℕ) :
    ∀ p ∈ walk_forward_periods lookback_days optimization_interval_days data_length,
      p.trade_start = p.opt_end ∧
        ∀ i j : ℕ, p.opt_start ≤ i → i < p.opt_end → p.trade_start ≤ j → j < p.trade_end →
          i < j := by
  intro p hp
  exact wfoLoop_windows _ _ _ _ _ p hp

/-- Witness for `walk_forward_period_windows`: with a 1-day lookback, a 1-day
interval and 5000 bars, the first candidate period is
`⟨0, 1440, 1440, 2880⟩`, and e.g. bar 1000 of its optimization window precedes
bar 1500 of its trading window. -/
theorem walk_forward_period_windows_witness :
    (⟨0, 1440, 1440, 2880⟩ : WFPeriod).trade_start = (⟨0, 1440, 1440, 2880⟩ : WFPeriod).opt_end ∧
      (1000 : ℕ) < 1500 :=
  let p : WFPeriod := ⟨0, 1440, 1440, 2880⟩
  have hmem : p ∈ walk_forward_periods 1 1 5000 := by
    unfold walk_forward_periods
    rw [wfoLoop]
    norm_num
  have h := walk_forward_period_windows 1 1 5000 p hmem
  ⟨h.1, h.2 1000 1500 (by norm_num) (by norm_num) (by norm_num) (by norm_num)⟩

end ClaimC1

section FoldOrderLemmas

variable {K : Type*} [LinearOrder K]

theorem le_foldl_max (l : List K) : ∀ a b : K, a ≤ b → a ≤ l.foldl max b := by
  induction l with
  | nil => intro a b h; simpa using h
  | cons x xs ih => intro a b h; exact ih a (max b x) (le_trans h (le_max_left b x))

theorem foldl_max_le (l : List K) :
    ∀ b c : K, b ≤ c → (∀ y ∈ l, y ≤ c) → l.foldl max b ≤ c := by
  induction l with
  | nil => intro b c h _; simpa using h
  | cons x xs ih =>
    intro b c h hy
    exact ih (max b x) c (max_le h (hy x (List.mem_cons_self x xs)))
      (fun y hy' => hy y (List.mem_cons_of_mem x hy'))

theorem mem_le_foldl_max (l : List K) : ∀ b : K, ∀ y ∈ l, y ≤ l.foldl max b := by
  induction l with
  | nil => simp
  | cons x xs ih =>
    intro b y hy
    rcases List.mem_cons.mp hy with rfl | hy
    · exact le_foldl_max xs y (max b y) (le_max_right b y)
    · exact ih (max b x) y hy

theorem foldl_min_le_init (l : List K) : ∀ b : K, l.foldl min b ≤ b := by
  induction l with
  | nil => intro b; exact le_rfl
  | cons x xs ih => intro b; exact le_trans (ih (min b x)) (min_le_left b x)

theorem foldl_min_le_mem (l : List K) : ∀ b : K, ∀ y ∈ l, l.foldl min b ≤ y := by
  induction l with
  | nil => simp
  | cons x xs ih =>
    intro b y hy
    rcases List.mem_cons.mp hy with rfl | hy
    · exact le_trans (foldl_min_le_init xs (min b y)) (min_le_right b y)
    · exact ih (min b x) y hy

theorem foldl_max_mem (l : List K) : ∀ b : K, l.foldl max b = b ∨ l.foldl max b ∈ l := by
  induction l with
  | nil => intro b; exact Or.inl rfl
  | cons x xs ih =>
    intro b
    rcases ih (max b x) with h | h
    · rcases max_choice b x with hm | hm
      · exact Or.inl (by rw [List.foldl_cons, h, hm])
      · exact Or.inr (by rw [List.foldl_cons, h, hm]; exact List.mem_cons_self x xs)
    · exact Or.inr (List.mem_cons_of_mem x h)

end FoldOrderLemmas

section ClaimC7

theorem runMaxAux_dd_nonneg : ∀ (xs : List ℚ) (cur : ℚ),
    ∀ y ∈ List.zipWith (· - ·) (runMaxAux cur xs) xs, 0 ≤ y := by
  intro xs
  induction xs with
  | nil => simp [runMaxAux]
  | cons x xs ih =>
    intro cur y hy
    simp only [runMaxAux, List.zipWith_cons_cons] at hy
    rcases List.mem_cons.mp hy with rfl | hy
    · simp [le_max_right cur x]
    · exact ih (max cur x) y hy

theorem runMaxAux_dd_zero_iff : ∀ (xs : List ℚ) (cur : ℚ),
    (∀ y ∈ List.zipWith (· - ·) (runMaxAux cur xs) xs, y = 0) ↔
      List.Chain' (· ≤ ·) (cur :: xs) := by
  intro xs
  induction xs with
  | nil => intro cur; simp [runMaxAux]
  | cons x xs ih =>
    intro cur
    simp only [runMaxAux, List.zipWith_cons_cons, List.mem_cons, forall_eq_or_imp,
      List.chain'_cons]
    constructor
    · rintro ⟨h0, hrest⟩
      have hmx : max cur x = x := sub_eq_zero.mp h0
      have hcx : cur ≤ x := max_eq_right_iff.mp hmx
      rw [hmx] at hrest
      exact ⟨hcx, (ih x).mp hrest⟩
    · rintro ⟨hcx, hchain⟩
      have hmx : max cur x = x := max_eq_right hcx
      rw [hmx]
      exact ⟨sub_self x, (ih x).mpr hchain⟩

theorem cumsumAux_ne_nil (acc : ℚ) (l : List ℚ) (h : l ≠ []) : cumsumAux acc l ≠ [] := by
  cases l with
  | nil => exact absurd rfl h
  | cons x xs => simp [cumsumAux]

/-- The drawdown maximum of any nonempty cumulative series is well defined,
nonnegative, and zero exactly when the series is non-decreasing. -/
theorem dd_max_spec (c : List ℚ) (hne : c ≠ []) :
    ∃ m : ℚ, np_max_opt (List.zipWith (· - ·) (running_max c) c) = some m ∧ 0 ≤ m ∧
      (m = 0 ↔ List.Chain' (· ≤ ·) c) := by
  obtain ⟨x, xs, rfl⟩ := List.exists_cons_of_ne_nil hne
  have hdd : List.zipWith (· - ·) (running_max (x :: xs)) (x :: xs)
      = 0 :: List.zipWith (· - ·) (runMaxAux x xs) xs := by
    simp [running_max, List.zipWith_cons_cons, sub_self]
  rw [hdd]
  refine ⟨(List.zipWith (· - ·) (runMaxAux x xs) xs).foldl max 0, rfl, ?_, ?_⟩
  · exact le_foldl_max _ 0 0 le_rfl
  · constructor
    · intro hm
      have hall : ∀ y ∈ List.zipWith (· - ·) (runMaxAux x xs) xs, y = 0 := by
        intro y hy
        have h1 : y ≤ 0 := hm ▸ mem_le_foldl_max _ 0 y hy
        have h2 : 0 ≤ y := runMaxAux_dd_nonneg xs x y hy
        linarith
      exact (runMaxAux_dd_zero_iff xs x).mp hall
    · intro hchain
      have hall := (runMaxAux_dd_zero_iff xs x).mpr hchain
      exact le_antisymm
        (foldl_max_le _ 0 0 le_rfl (fun y hy => le_of_eq (hall y hy)))
        (le_foldl_max _ 0 0 le_rfl)

/-- **C7**: for every nonempty trade list, the `max_drawdown` entry computed
by `_calculate_performance_metrics` is a well-defined value `m ≥ 0`, and
`m = 0` exactly when the cumulative PnL series is non-decreasing
throughout. -/
theorem max_drawdown_nonneg_zero_iff (results : List BTTrade) (hne : results ≠ []) :
    ∃ m : ℚ, (calculate_performance_metrics results).lookup "max_drawdown" = some m ∧
      0 ≤ m ∧
      (m = 0 ↔ List.Chain' (· ≤ ·) (np_cumsum (results.map (fun t => t.1)))) := by
  obtain ⟨m, hm, h0, hiff⟩ := dd_max_spec (np_cumsum (results.map (fun t => t.1)))
    (cumsumAux_ne_nil 0 _ (by simpa using hne))
  refine ⟨m, ?_, h0, hiff⟩
  have hdd : np_max_opt (drawdown_series (results.map (fun t => t.1))) = some m := hm
  simp only [calculate_performance_metrics, if_neg hne]
  rw [hdd]
  rfl

/-- Witness for `max_drawdown_nonneg_zero_iff` on the two-trade list with
PnLs `1, -2`. -/
theorem max_drawdown_nonneg_zero_iff_witness :
    ∃ m : ℚ,
      (calculate_performance_metrics [(1, 1, 2, 3), (-2, -1, 4, 5)]).lookup "max_drawdown"
        = some m ∧ 0 ≤ m ∧
      (m = 0 ↔ List.Chain' (· ≤ ·)
        (np_cumsum ([((1 : ℚ), (1 : ℤ), (2 : ℤ), (3 : ℤ)),
          ((-2 : ℚ), (-1 : ℤ), (4 : ℤ), (5 : ℤ))].map (fun t => t.1)))) :=
  max_drawdown_nonneg_zero_iff [(1, 1, 2, 3), (-2, -1, 4, 5)] (by simp)

end ClaimC7

section ClaimC9

/-- **C9**: on the empty trade list `_calculate_performance_metrics` returns
(without an error) the seven-entry all-zero dictionary — which omits the
`best_trade` and `worst_trade` statistics entirely, contradicting the claim
that every summary statistic is present (and making the source's own
`print_performance_summary` fail on a tradeless run). -/
theorem performance_metrics_empty :
    calculate_performance_metrics [] =
      [("total_trades", 0), ("total_pnl", 0), ("average_trade", 0), ("win_rate", 0),
       ("max_drawdown", 0), ("winning_trades", 0), ("losing_trades", 0)] ∧
    ("best_trade" ∉ (calculate_performance_metrics []).map Prod.fst) ∧
    ("worst_trade" ∉ (calculate_performance_metrics []).map Prod.fst) := by
  refine ⟨rfl, ?_, ?_⟩ <;> simp [calculate_performance_metrics]

end ClaimC9

section ClaimC6

theorem findStartLoop_no_sunday (weekdays : List ℕ) (n : ℕ) :
    ∀ (fuel s : ℕ), s ≤ n → n ≤ s + fuel →
      (∀ j, s ≤ j → j < n → weekdays.getD j 0 ≠ 6) →
      findStartLoop weekdays n s fuel = n := by
  intro fuel
  induction fuel with
  | zero => intro s hs hf _; rw [findStartLoop]; omega
  | succ fuel ih =>
    intro s hs hf hno
    rw [findStartLoop]
    split_ifs with h1 h2
    · exact absurd h2 (hno s le_rfl h1)
    · exact ih (s + 1) (by omega) (by omega) (fun j hj => hno j (by omega))
    · omega

theorem findStartLoop_first_sunday (weekdays : List ℕ) (n : ℕ) (t : ℕ)
    (ht : t < n) (hsun : weekdays.getD t 0 = 6) :
    ∀ (fuel s : ℕ), s ≤ t → n ≤ s + fuel →
      (∀ j, s ≤ j → j < t → weekdays.getD j 0 ≠ 6) →
      findStartLoop weekdays n s fuel = t := by
  intro fuel
  induction fuel with
  | zero => intro s hs hf _; omega
  | succ fuel ih =>
    intro s hs hf hno
    rw [findStartLoop]
    split_ifs with h1 h2
    · rcases Nat.lt_or_ge s t with hst | hst
      · exact absurd h2 (hno s le_rfl hst)
      · omega
    · have hst : s < t := by
        rcases Nat.lt_or_ge s t with hst | hst
        · exact hst
        · have : s = t := by omega
          rw [this] at h2
          exact absurd hsun h2
      exact ih (s + 1) (by omega) (by omega) (fun j hj => hno j (by omega))
    · omega

theorem sundayEpochsLoop_head (weekdays : List ℕ) (n s fuel : ℕ)
    (hs : s < n) (hsun : weekdays.getD s 0 = 6) :
    ∃ rest, sundayEpochsLoop weekdays n s (fuel + 1) = s :: rest := by
  rw [sundayEpochsLoop]
  rw [if_pos hs]
  obtain ⟨k, hk⟩ : ∃ k, min (s + 7) n - s = k + 1 := ⟨min (s + 7) n - s - 1, by omega⟩
  rw [hk, List.range'_succ]
  rw [List.find?_cons]
  have : (weekdays.getD s 0 == 6) = true := by simpa using hsun
  rw [this]
  exact ⟨_, rfl⟩

theorem sundayEpochsLoop_stopped (weekdays : List ℕ) (n s fuel : ℕ) (hs : n ≤ s) :
    sundayEpochsLoop weekdays n s fuel = [] := by
  cases fuel with
  | zero => rfl
  | succ fuel => rw [sundayEpochsLoop]; rw [if_neg (by omega)]

/-- **C6 (amended)**: the first rebalance epoch is the first calendar index at
or after `lookback` whose weekday is Sunday, where the search runs to the end
of the series (not only over the first 7 candidate bars); the fall-back to a
single equal-weight vector for the full series happens exactly when no Sunday
exists at any index in `[lookback, n)`. -/
theorem rebalance_schedule_spec (weekdays : List ℕ) (lookback : ℕ) (n_assets : ℕ)
    (M : List (List ℝ)) (method : RebalanceMethod) (hlb : lookback ≤ weekdays.length) :
    (∀ s : ℕ, s < weekdays.length → lookback ≤ s → weekdays.getD s 0 = 6 →
      (∀ j, lookback ≤ j → j < s → weekdays.getD j 0 ≠ 6) →
      (rebalance_dates_idx weekdays lookback).head? = some s) ∧
    ((∀ j, lookback ≤ j → j < weekdays.length → weekdays.getD j 0 ≠ 6) →
      rebalance_dates_idx weekdays lookback = [] ∧
      backtest_weights_history n_assets M weekdays lookback method =
        [List.replicate n_assets (1 / (n_assets : ℝ))]) := by
  constructor
  · intro s hs hls hsun hno
    have hstart : first_rebalance_start weekdays lookback = s :=
      findStartLoop_first_sunday weekdays weekdays.length s hs hsun
        (weekdays.length + 1) lookback hls (by omega) hno
    unfold rebalance_dates_idx
    rw [hstart]
    obtain ⟨rest, hrest⟩ :=
      sundayEpochsLoop_head weekdays weekdays.length s weekdays.length hs hsun
    rw [hrest]
    rfl
  · intro hno
    have hstart : first_rebalance_start weekdays lookback = weekdays.length :=
      findStartLoop_no_sunday weekdays weekdays.length (weekdays.length + 1) lookback
        hlb (by omega) hno
    have hempty : rebalance_dates_idx weekdays lookback = [] := by
      unfold rebalance_dates_idx
      rw [hstart]
      exact sundayEpochsLoop_stopped weekdays weekdays.length weekdays.length
        (weekdays.length + 1) le_rfl
    refine ⟨hempty, ?_⟩
    unfold backtest_weights_history
    rw [hempty]
    rfl

/-- Witness for `rebalance_schedule_spec`: an 11-bar weekday sequence with its
only Sunday at index 10 and `lookback = 1`; the first epoch is 10. -/
theorem rebalance_schedule_spec_witness :
    (rebalance_dates_idx [0, 1, 2, 3, 4, 0, 1, 2, 3, 4, 6] 1).head? = some 10 :=
  (rebalance_schedule_spec [0, 1, 2, 3, 4, 0, 1, 2, 3, 4, 6] 1 2 [] .momentum
    (by norm_num)).1 10 (by norm_num) (by norm_num) (by decide)
    (by decide)

/-- **C6 counterexample**: with weekdays `[0,1,2,3,4,0,1,2,3,4,6]` (no Sunday
among the 7 candidate bars `1..7`, a Sunday only at index 10) and
`lookback = 1`, the rebalancer does *not* fall back to the single equal-weight
vector: it records the rebalance epoch 10 found by scanning beyond the first 7
candidates, and its recorded epoch list `[10]` differs from the fallback list
`[lookback] = [1]`. -/
theorem rebalance_seven_bar_fallback_fails :
    (∀ k, k < 7 → ([0, 1, 2, 3, 4, 0, 1, 2, 3, 4, 6] : List ℕ).getD (1 + k) 0 ≠ 6) ∧
    rebalance_dates_idx [0, 1, 2, 3, 4, 0, 1, 2, 3, 4, 6] 1 = [10] ∧
    final_rebalance_dates_idx [0, 1, 2, 3, 4, 0, 1, 2, 3, 4, 6] 1 ≠ [1] := by
  refine ⟨by decide, by decide, by decide⟩

end ClaimC6

section ClaimC10

theorem portfolio_state_before_frozen (n_assets : ℕ) (wh : List (List ℝ))
    (ridx : List ℕ) :
    ∀ d : ℕ, (∀ r ∈ ridx, d ≤ r) →
      portfolio_state_before n_assets wh ridx d = (initial_weights n_assets wh, 0) := by
  intro d
  induction d with
  | zero => intro _; rfl
  | succ d ih =>
    intro hd
    have hd' : ∀ r ∈ ridx, d ≤ r := fun r hr => le_trans (Nat.le_succ d) (hd r hr)
    rw [portfolio_state_before, ih hd', portfolio_step]
    rw [if_neg (fun h => absurd (hd d h.1) (by omega))]

/-- **C10**: in `_calculate_portfolio_performance`, on every day strictly
before the first rebalance epoch the weights applied are already
`weights_history[0]` — the vector computed from returns up to that future
epoch — and the portfolio return of such a day is the dot product of
`weights_history[0]` with that day's returns row. -/
theorem pre_epoch_weights_lookahead (returns_matrix : List (List ℝ))
    (weights_history : List (List ℝ)) (rebalance_idx : List ℕ) (n_assets day : ℕ)
    (hwh : weights_history ≠ []) (_hr : rebalance_idx ≠ [])
    (hday : ∀ r ∈ rebalance_idx, day < r) :
    weights_used_on n_assets weights_history rebalance_idx day =
      weights_history.getD 0 [] ∧
    (day < returns_matrix.length →
      (portfolio_returns n_assets returns_matrix weights_history rebalance_idx).getD day 0 =
        np_dot (weights_history.getD 0 []) (returns_matrix.getD day [])) := by
  have hfrozen := portfolio_state_before_frozen n_assets weights_history rebalance_idx day
    (fun r hr' => le_of_lt (hday r hr'))
  have hw : weights_used_on n_assets weights_history rebalance_idx day =
      weights_history.getD 0 [] := by
    unfold weights_used_on
    rw [hfrozen, portfolio_step]
    rw [if_neg (fun h => absurd (hday day h.1) (by omega))]
    unfold initial_weights
    rw [if_pos hwh]
  refine ⟨hw, fun hlen => ?_⟩
  unfold portfolio_returns
  rw [List.getD_eq_getElem _ _ (by simpa using hlen)]
  rw [List.getElem_map]
  rw [List.getElem_range]
  rw [hw]

/-- Witness for `pre_epoch_weights_lookahead`: one rebalance epoch at day 3,
`weights_history = [[1, 0]]`; day 1 (before the epoch) already uses
`weights_history[0]`. -/
theorem pre_epoch_weights_lookahead_witness :
    weights_used_on 2 [[(1 : ℝ), 0]] [3] 1 = [[(1 : ℝ), 0]].getD 0 [] ∧
    (1 < ([[(0 : ℝ), 0], [0, 0], [0, 0], [0, 0]] : List (List ℝ)).length →
      (portfolio_returns 2 [[(0 : ℝ), 0], [0, 0], [0, 0], [0, 0]] [[(1 : ℝ), 0]] [3]).getD 1 0 =
        np_dot ([[(1 : ℝ), 0]].getD 0 [])
          (([[(0 : ℝ), 0], [0, 0], [0, 0], [0, 0]] : List (List ℝ)).getD 1 [])) :=
  pre_epoch_weights_lookahead [[(0 : ℝ), 0], [0, 0], [0, 0], [0, 0]] [[(1 : ℝ), 0]] [3] 2 1
    (by simp) (by simp) (by simp)

end ClaimC10

section PolicyLemmas

variable {K : Type*} [LinearOrderedField K]

theorem np_min_le {l : List K} {y : K} (hy : y ∈ l) : np_min l ≤ y := by
  cases l with
  | nil => cases hy
  | cons x xs =>
    show xs.foldl min x ≤ y
    rcases List.mem_cons.mp hy with rfl | hy
    · exact foldl_min_le_init xs y
    · exact foldl_min_le_mem xs x y hy

theorem le_np_max {l : List K} {y : K} (hy : y ∈ l) : y ≤ np_max l := by
  cases l with
  | nil => cases hy
  | cons x xs =>
    show y ≤ xs.foldl max x
    rcases List.mem_cons.mp hy with rfl | hy
    · exact le_foldl_max xs y y le_rfl
    · exact mem_le_foldl_max xs x y hy

theorem np_max_mem {l : List K} (h : l ≠ []) : np_max l ∈ l := by
  cases l with
  | nil => exact absurd rfl h
  | cons x xs =>
    show xs.foldl max x ∈ x :: xs
    rcases foldl_max_mem xs x with h1 | h1
    · rw [h1]; exact List.mem_cons_self x xs
    · exact List.mem_cons_of_mem x h1

theorem list_sum_map_div (l : List K) (t : K) : (l.map (· / t)).sum = l.sum / t := by
  induction l with
  | nil => simp
  | cons x xs ih => simp [ih, add_div]

theorem zipWith_mask_map (scores : List K) (g : K → K) :
    List.zipWith (fun c w => if 0 < c then w else 0) scores
      ((scores.map (fun c => if 0 < c then c else 0)).map g) =
    scores.map (fun c => if 0 < c then g c else 0) := by
  induction scores with
  | nil => rfl
  | cons c cs ih =>
    simp only [List.map_cons, List.zipWith_cons_cons, ih]
    congr 1
    split_ifs <;> rfl

/-- The masked score vector is nonnegative and, given one positive score, its
maximum is attained at a strictly positive score. -/
theorem masked_scores_facts (scores : List K) {c₀ : K} (hc₀m : c₀ ∈ scores)
    (hc₀ : 0 < c₀) :
    0 < np_max (scores.map (fun c => if 0 < c then c else 0)) ∧
    ∃ c₁ ∈ scores, 0 < c₁ ∧
      (if 0 < c₁ then c₁ else 0) = np_max (scores.map (fun c => if 0 < c then c else 0)) := by
  have hmem : (if 0 < c₀ then c₀ else 0) ∈ scores.map (fun c => if 0 < c then c else 0) :=
    List.mem_map_of_mem _ hc₀m
  have hle : c₀ ≤ np_max (scores.map (fun c => if 0 < c then c else 0)) := by
    have := le_np_max hmem
    rwa [if_pos hc₀] at this
  have hpos : 0 < np_max (scores.map (fun c => if 0 < c then c else 0)) := lt_of_lt_of_le hc₀ hle
  obtain ⟨c₁, hc₁m, hc₁eq⟩ := List.mem_map.mp
    (np_max_mem (l := scores.map (fun c => if 0 < c then c else 0))
      (by
        intro hnil
        rw [hnil] at hmem
        cases hmem))
  refine ⟨hpos, c₁, hc₁m, ?_, hc₁eq⟩
  by_contra hneg
  rw [if_neg hneg] at hc₁eq
  rw [← hc₁eq] at hpos
  exact lt_irrefl 0 hpos

/-- **Shared invariant of the exclusion/normalization pipeline**: all returned
weights are nonnegative and they sum to exactly 1 (some score positive) or
exactly 0 (no positive score). -/
theorem exclusion_pipeline_spec (scores : List K) :
    (∀ w ∈ exclusion_pipeline scores, 0 ≤ w) ∧
    ((exclusion_pipeline scores).sum = 1 ∨ (exclusion_pipeline scores).sum = 0) := by
  by_cases hall : ∀ c ∈ scores, ¬ (0 < c)
  · rw [exclusion_pipeline, if_pos hall]
    exact ⟨fun w hw => le_of_eq (List.eq_of_mem_replicate hw).symm, Or.inr (by simp)⟩
  · push_neg at hall
    obtain ⟨c₀, hc₀m, hc₀⟩ := hall
    have hno : ¬ ∀ c ∈ scores, ¬ (0 < c) := fun h => (h c₀ hc₀m) hc₀
    have hsne : scores ≠ [] := List.ne_nil_of_mem hc₀m
    have hlen0 : (scores.map (fun c => if 0 < c then c else 0)).length ≠ 0 := by
      simp [List.length_eq_zero, hsne]
    rw [exclusion_pipeline, if_neg hno]
    simp only [normalize_scores, if_neg hlen0]
    obtain ⟨hmaxpos, c₁, hc₁m, hc₁pos, hc₁eq⟩ := masked_scores_facts scores hc₀m hc₀
    by_cases hml : np_max (scores.map (fun c => if 0 < c then c else 0))
        = np_min (scores.map (fun c => if 0 < c then c else 0))
    · -- all masked scores coincide: uniform normalization
      rw [if_pos hml, List.length_map, zipWith_mask_map]
      have hn : (0 : K) < (scores.length : K) := by
        have : scores.length ≠ 0 := by simp [List.length_eq_zero, hsne]
        exact_mod_cast Nat.pos_of_ne_zero this
      have hnn : ∀ w ∈ scores.map (fun c => if 0 < c then 1 / (scores.length : K) else 0),
          0 ≤ w := by
        intro w hw
        obtain ⟨c, _, rfl⟩ := List.mem_map.mp hw
        split_ifs
        · positivity
        · exact le_rfl
      have hmem1 : (1 / (scores.length : K)) ∈
          scores.map (fun c => if 0 < c then 1 / (scores.length : K) else 0) := by
        refine List.mem_map.mpr ⟨c₀, hc₀m, ?_⟩
        rw [if_pos hc₀]
      have htot : 0 < (scores.map (fun c => if 0 < c then 1 / (scores.length : K) else 0)).sum :=
        lt_of_lt_of_le (by positivity) (List.single_le_sum hnn _ hmem1)
      rw [if_pos htot]
      constructor
      · intro w hw
        obtain ⟨v, hv, rfl⟩ := List.mem_map.mp hw
        exact div_nonneg (hnn v hv) (le_of_lt htot)
      · left
        rw [list_sum_map_div]
        exact div_self (ne_of_gt htot)
    · -- genuine min-max normalization
      rw [if_neg hml, zipWith_mask_map]
      set lo := np_min (scores.map (fun c => if 0 < c then c else 0)) with hlo
      set hi := np_max (scores.map (fun c => if 0 < c then c else 0)) with hhi
      have hlohi : lo < hi := by
        have hfne : scores.map (fun c => if 0 < c then c else 0) ≠ [] := by
          intro hnil
          exact hlen0 (by rw [hnil]; rfl)
        have h1 : lo ≤ hi := np_min_le (np_max_mem hfne)
        rcases lt_or_eq_of_le h1 with h | h
        · exact h
        · exact absurd h.symm hml
      have hnn : ∀ w ∈ scores.map (fun c => if 0 < c then (c - lo) / (hi - lo) else 0),
          0 ≤ w := by
        intro w hw
        obtain ⟨c, hcm, rfl⟩ := List.mem_map.mp hw
        split_ifs with hc
        · have hcin : c ∈ scores.map (fun c => if 0 < c then c else 0) := by
            refine List.mem_map.mpr ⟨c, hcm, ?_⟩
            rw [if_pos hc]
          exact div_nonneg (sub_nonneg.mpr (np_min_le hcin)) (le_of_lt (sub_pos.mpr hlohi))
        · exact le_rfl
      have hmem1 : (1 : K) ∈ scores.map (fun c => if 0 < c then (c - lo) / (hi - lo) else 0) := by
        refine List.mem_map.mpr ⟨c₁, hc₁m, ?_⟩
        rw [if_pos hc₁pos]
        rw [if_pos hc₁pos] at hc₁eq
        rw [hc₁eq]
        exact div_self (ne_of_gt (sub_pos.mpr hlohi))
      have htot : 0 < (scores.map (fun c => if 0 < c then (c - lo) / (hi - lo) else 0)).sum :=
        lt_of_lt_of_le one_pos (List.single_le_sum hnn _ hmem1)
      rw [if_pos htot]
      constructor
      · intro w hw
        obtain ⟨v, hv, rfl⟩ := List.mem_map.mp hw
        exact div_nonneg (hnn v hv) (le_of_lt htot)
      · left
        rw [list_sum_map_div]
        exact div_self (ne_of_gt htot)

end PolicyLemmas

section ClaimC5

/-- **C5 counterexample**: on the single-row slice `[[0.1, 0.2, -0.1]]` with
`lookback = 1`, the code returns `[1/3, 2/3, 0]` while the specification's
min-max normalization over *only the positive values* gives `[0, 1, 0]`: the
code min-max normalizes the vector in which the excluded strategy's score is
set to `0`, so the minimum of the normalization range is `0` rather than the
smallest positive cumulative return. -/
theorem momentum_weights_spec_ref_mismatch :
    calculate_momentum_weights 3 [[1/10, 2/10, -1/10]] 1 ≠
      spec_momentum_weights 3 [[1/10, 2/10, -1/10]] 1 := by
  have h1 : calculate_momentum_weights 3 [[(1 : ℚ)/10, 2/10, -1/10]] 1 = [1/3, 2/3, 0] := by
    norm_num [calculate_momentum_weights, exclusion_pipeline, normalize_scores, cum_return,
      matrix_column, np_min, np_max, List.range_succ, min_def, max_def]
  have h2 : spec_momentum_weights 3 [[(1 : ℚ)/10, 2/10, -1/10]] 1 = [0, 1, 0] := by
    norm_num [spec_momentum_weights, cum_return, matrix_column, np_min, np_max,
      List.range_succ, min_def, max_def, List.filter_cons, decide_eq_true_eq]
    exact fun h => absurd h (by simp)
  rw [h1, h2]
  norm_num

/-- **C5 (amended)**: for every slice (with at least `lookback` rows the
fallback does not trigger, but the equation holds unconditionally), the code's
Momentum weights equal the amended reference: cumulative lookback returns,
exclusion of non-positive strategies, min-max normalization of the score
vector *with excluded strategies set to 0* (uniform weights over the positive
strategies when all scores coincide), masking, and renormalization to sum 1. -/
theorem calculate_momentum_weights_amended (n_assets : ℕ)
    (returns_matrix : List (List ℚ)) (lookback : ℕ) :
    calculate_momentum_weights n_assets returns_matrix lookback =
      momentum_weights_amended n_assets returns_matrix lookback := by
  simp only [calculate_momentum_weights, momentum_weights_amended]
  by_cases hlb : returns_matrix.length < lookback
  · rw [if_pos hlb, if_pos hlb]
  · rw [if_neg hlb, if_neg hlb]
    set cums := (List.range n_assets).map
      (fun i => cum_return (matrix_column returns_matrix i)) with hcums
    have hcl : cums.length = n_assets := by
      rw [hcums, List.length_map, List.length_range]
    by_cases hall : ∀ c ∈ cums, ¬ (0 < c)
    · rw [exclusion_pipeline, if_pos hall, if_pos hall, hcl]
    · push_neg at hall
      obtain ⟨c₀, hc₀m, hc₀⟩ := hall
      have hno : ¬ ∀ c ∈ cums, ¬ (0 < c) := fun h => (h c₀ hc₀m) hc₀
      have hsne : cums ≠ [] := List.ne_nil_of_mem hc₀m
      have hn0 : n_assets ≠ 0 := by
        intro h
        rw [h] at hcl
        exact hsne (List.length_eq_zero.mp hcl)
      have hlen0 : (cums.map (fun c => if 0 < c then c else 0)).length ≠ 0 := by
        simp [List.length_eq_zero, hsne]
      rw [exclusion_pipeline, if_neg hno, if_neg hno]
      simp only [normalize_scores, if_neg hlen0]
      obtain ⟨hmaxpos, c₁, hc₁m, hc₁pos, hc₁eq⟩ := masked_scores_facts cums hc₀m hc₀
      by_cases hml : np_max (cums.map (fun c => if 0 < c then c else 0))
          = np_min (cums.map (fun c => if 0 < c then c else 0))
      · rw [if_pos hml, if_pos hml, List.length_map, zipWith_mask_map, hcl]
        have hn : (0 : ℚ) < (n_assets : ℚ) :=
          by exact_mod_cast Nat.pos_of_ne_zero hn0
        have hnn : ∀ w ∈ cums.map (fun c => if 0 < c then 1 / (n_assets : ℚ) else 0),
            0 ≤ w := by
          intro w hw
          obtain ⟨c, _, rfl⟩ := List.mem_map.mp hw
          split_ifs
          · positivity
          · exact le_rfl
        have hmem1 : (1 / (n_assets : ℚ)) ∈
            cums.map (fun c => if 0 < c then 1 / (n_assets : ℚ) else 0) :=
          List.mem_map.mpr ⟨c₀, hc₀m, by rw [if_pos hc₀]⟩
        have htot : 0 < (cums.map (fun c => if 0 < c then 1 / (n_assets : ℚ) else 0)).sum :=
          lt_of_lt_of_le (by positivity) (List.single_le_sum hnn _ hmem1)
        rw [if_pos htot]
      · rw [if_neg hml, if_neg hml, zipWith_mask_map]
        set lo := np_min (cums.map (fun c => if 0 < c then c else 0)) with hlo
        set hi := np_max (cums.map (fun c => if 0 < c then c else 0)) with hhi
        have hfne : cums.map (fun c => if 0 < c then c else 0) ≠ [] := by
          intro hnil
          exact hlen0 (by rw [hnil]; rfl)
        have hlohi : lo < hi := by
          have h1 : lo ≤ hi := np_min_le (np_max_mem hfne)
          rcases lt_or_eq_of_le h1 with h | h
          · exact h
          · exact absurd h.symm hml
        have hnn : ∀ w ∈ cums.map (fun c => if 0 < c then (c - lo) / (hi - lo) else 0),
            0 ≤ w := by
          intro w hw
          obtain ⟨c, hcm, rfl⟩ := List.mem_map.mp hw
          split_ifs with hc
          · have hcin : c ∈ cums.map (fun c => if 0 < c then c else 0) :=
              List.mem_map.mpr ⟨c, hcm, by rw [if_pos hc]⟩
            exact div_nonneg (sub_nonneg.mpr (np_min_le hcin)) (le_of_lt (sub_pos.mpr hlohi))
          · exact le_rfl
        have hmem1 : (1 : ℚ) ∈ cums.map (fun c => if 0 < c then (c - lo) / (hi - lo) else 0) := by
          refine List.mem_map.mpr ⟨c₁, hc₁m, ?_⟩
          rw [if_pos hc₁pos]
          rw [if_pos hc₁pos] at hc₁eq
          rw [hc₁eq]
          exact div_self (ne_of_gt (sub_pos.mpr hlohi))
        have htot : 0 < (cums.map (fun c => if 0 < c then (c - lo) / (hi - lo) else 0)).sum :=
          lt_of_lt_of_le one_pos (List.single_le_sum hnn _ hmem1)
        rw [if_pos htot]

end ClaimC5

section ClaimC4Lemmas

variable {K : Type*} [LinearOrderedField K]

theorem list_range_map_sum (n : ℕ) (f : ℕ → K) :
    ((List.range n).map f).sum = ∑ i ∈ Finset.range n, f i := rfl

theorem equal_weights_spec (n : ℕ) (hn : 0 < n) :
    (∀ w ∈ List.replicate n (1 / (n : K)), 0 ≤ w) ∧
      (List.replicate n (1 / (n : K))).sum = 1 := by
  have hnK : (0 : K) < (n : K) := by exact_mod_cast hn
  constructor
  · intro w hw
    rw [List.eq_of_mem_replicate hw]
    positivity
  · rw [List.sum_replicate, nsmul_eq_mul]
    field_simp

theorem sum_map_ite_countP (l : List K) (x : K) :
    (l.map (fun c => if 0 < c then x else 0)).sum =
      (l.countP (fun c => decide (0 < c))) • x := by
  induction l with
  | nil => simp
  | cons c cs ih =>
    rw [List.map_cons, List.sum_cons, ih, List.countP_cons]
    by_cases hc : 0 < c
    · rw [if_pos hc, if_pos (by simpa using hc), succ_nsmul]
      ring
    · rw [if_neg hc, if_neg (by simpa using hc)]
      simp

theorem sum_indicator_range (n : ℕ) (t : List ℕ) (c : K)
    (hsub : ∀ i ∈ t, i < n) (hnd : t.Nodup) :
    ((List.range n).map (fun i => if i ∈ t then c else 0)).sum = t.length • c := by
  rw [list_range_map_sum]
  rw [Finset.sum_congr rfl (fun i _ => if_congr List.mem_toFinset.symm rfl rfl)]
  rw [Finset.sum_ite_mem]
  rw [Finset.inter_eq_right.mpr
    (fun i hi => Finset.mem_range.mpr (hsub i (List.mem_toFinset.mp hi)))]
  rw [Finset.sum_const]
  rw [List.toFinset_card_of_nodup hnd]

theorem insert_desc_perm (scores : List K) (i : ℕ) (l : List ℕ) :
    (insert_desc scores i l).Perm (i :: l) := by
  induction l with
  | nil => exact List.Perm.refl _
  | cons j rest ih =>
    rw [insert_desc]
    split_ifs with h
    · exact List.Perm.refl _
    · exact (ih.cons j).trans (List.Perm.swap i j rest)

theorem sort_desc_perm (scores : List K) (l : List ℕ) : (sort_desc scores l).Perm l := by
  induction l with
  | nil => exact List.Perm.refl _
  | cons i is' ih => exact (insert_desc_perm scores i (sort_desc scores is')).trans (ih.cons i)

theorem argsort_desc_perm (scores : List K) :
    (argsort_desc scores).Perm (List.range scores.length) :=
  sort_desc_perm scores (List.range scores.length)

theorem take_top_foldl_length (scores : List K) (n_top : ℕ) :
    ∀ (l acc : List ℕ), acc.length ≤
      (l.foldl (fun acc idx =>
        if 0 < scores.getD idx 0 ∧ acc.length < n_top then acc ++ [idx] else acc) acc).length := by
  intro l
  induction l with
  | nil => intro acc; exact le_rfl
  | cons idx rest ih =>
    intro acc
    rw [List.foldl_cons]
    refine le_trans ?_ (ih _)
    split_ifs
    · simp
    · exact le_rfl

theorem take_top_foldl_ne_nil (scores : List K) (n_top : ℕ) (hn : 0 < n_top) :
    ∀ (l acc : List ℕ), ((∃ i ∈ l, 0 < scores.getD i 0) ∨ acc ≠ []) →
      (l.foldl (fun acc idx =>
        if 0 < scores.getD idx 0 ∧ acc.length < n_top then acc ++ [idx] else acc) acc) ≠ [] := by
  intro l
  induction l with
  | nil =>
    intro acc h
    rcases h with ⟨i, hi, _⟩ | h
    · cases hi
    · exact h
  | cons idx rest ih =>
    intro acc h
    rw [List.foldl_cons]
    rcases h with ⟨i, hi, hp⟩ | hne
    · rcases List.mem_cons.mp hi with rfl | hi
      · by_cases hlen : acc.length < n_top
        · refine ih _ (Or.inr ?_)
          rw [if_pos ⟨hp, hlen⟩]
          simp
        · refine ih _ (Or.inr ?_)
          rw [if_neg (fun hAnd => hlen hAnd.2)]
          intro hnil
          rw [hnil] at hlen
          exact hlen (by simpa using hn)
      · exact ih _ (Or.inl ⟨i, hi, hp⟩)
    · refine ih _ (Or.inr ?_)
      split_ifs
      · simp
      · exact hne

theorem take_top_foldl_nodup_mem (scores : List K) (n_top : ℕ) :
    ∀ (l acc : List ℕ), acc.Nodup → l.Nodup → (∀ i ∈ acc, i ∉ l) →
      ((l.foldl (fun acc idx =>
          if 0 < scores.getD idx 0 ∧ acc.length < n_top then acc ++ [idx] else acc) acc).Nodup ∧
        ∀ i ∈ l.foldl (fun acc idx =>
          if 0 < scores.getD idx 0 ∧ acc.length < n_top then acc ++ [idx] else acc) acc,
          i ∈ acc ∨ i ∈ l) := by
  intro l
  induction l with
  | nil => intro acc hacc _ _; exact ⟨hacc, fun i hi => Or.inl hi⟩
  | cons idx rest ih =>
    intro acc hacc hl hdis
    rw [List.foldl_cons]
    have hlrest : rest.Nodup := (List.nodup_cons.mp hl).2
    have hidxrest : idx ∉ rest := (List.nodup_cons.mp hl).1
    by_cases hc : 0 < scores.getD idx 0 ∧ acc.length < n_top
    · rw [if_pos hc]
      have hacc' : (acc ++ [idx]).Nodup := by
        rw [List.nodup_append]
        refine ⟨hacc, List.nodup_singleton idx, ?_⟩
        intro a ha hb
        rw [List.mem_singleton] at hb
        exact (hdis a ha) (by rw [hb]; exact List.mem_cons_self idx rest)
      have hdis' : ∀ i ∈ acc ++ [idx], i ∉ rest := by
        intro i hi
        rcases List.mem_append.mp hi with hi | hi
        · exact fun hr => (hdis i hi) (List.mem_cons_of_mem idx hr)
        · rw [List.mem_singleton] at hi
          subst hi
          exact hidxrest
      obtain ⟨h1, h2⟩ := ih (acc ++ [idx]) hacc' hlrest hdis'
      refine ⟨h1, fun i hi => ?_⟩
      rcases h2 i hi with hi' | hi'
      · rcases List.mem_append.mp hi' with hi'' | hi''
        · exact Or.inl hi''
        · rw [List.mem_singleton] at hi''
          exact Or.inr (hi'' ▸ List.mem_cons_self idx rest)
      · exact Or.inr (List.mem_cons_of_mem idx hi')
    · rw [if_neg hc]
      have hdis' : ∀ i ∈ acc, i ∉ rest :=
        fun i hi hr => (hdis i hi) (List.mem_cons_of_mem idx hr)
      obtain ⟨h1, h2⟩ := ih acc hacc hlrest hdis'
      exact ⟨h1, fun i hi => (h2 i hi).imp id (List.mem_cons_of_mem idx)⟩

end ClaimC4Lemmas

section ClaimC4

theorem calculate_momentum_weights_spec {K : Type*} [LinearOrderedField K]
    (n_assets : ℕ) (returns_matrix : List (List K)) (lookback : ℕ) (hn : 0 < n_assets) :
    (∀ w ∈ calculate_momentum_weights n_assets returns_matrix lookback, 0 ≤ w) ∧
    ((calculate_momentum_weights n_assets returns_matrix lookback).sum = 1 ∨
      (calculate_momentum_weights n_assets returns_matrix lookback).sum = 0) := by
  rw [calculate_momentum_weights]
  split_ifs with h
  · obtain ⟨h1, h2⟩ := equal_weights_spec (K := K) n_assets hn
    exact ⟨h1, Or.inl h2⟩
  · exact exclusion_pipeline_spec _

theorem calculate_sharpe_momentum_weights_spec
    (n_assets : ℕ) (returns_matrix : List (List ℝ)) (lookback : ℕ) (hn : 0 < n_assets) :
    (∀ w ∈ calculate_sharpe_momentum_weights n_assets returns_matrix lookback, 0 ≤ w) ∧
    ((calculate_sharpe_momentum_weights n_assets returns_matrix lookback).sum = 1 ∨
      (calculate_sharpe_momentum_weights n_assets returns_matrix lookback).sum = 0) := by
  rw [calculate_sharpe_momentum_weights]
  split_ifs with h
  · obtain ⟨h1, h2⟩ := equal_weights_spec (K := ℝ) n_assets hn
    exact ⟨h1, Or.inl h2⟩
  · exact exclusion_pipeline_spec _

theorem calculate_top_n_ranking_weights_spec {K : Type*} [LinearOrderedField K]
    (n_assets : ℕ) (returns_matrix : List (List K)) (lookback n_top : ℕ)
    (hn : 0 < n_assets) :
    (∀ w ∈ calculate_top_n_ranking_weights n_assets returns_matrix lookback n_top, 0 ≤ w) ∧
    ((calculate_top_n_ranking_weights n_assets returns_matrix lookback n_top).sum = 1 ∨
      (calculate_top_n_ranking_weights n_assets returns_matrix lookback n_top).sum = 0) := by
  simp only [calculate_top_n_ranking_weights]
  split_ifs with h1 h2 h3
  · obtain ⟨ha, hb⟩ := equal_weights_spec (K := K) n_assets hn
    exact ⟨ha, Or.inl hb⟩
  · exact ⟨fun w hw => le_of_eq (List.eq_of_mem_replicate hw).symm, Or.inr (by simp)⟩
  · exact ⟨fun w hw => le_of_eq (List.eq_of_mem_replicate hw).symm, Or.inr (by simp)⟩
  · set cums := (List.range n_assets).map
      (fun i => cum_return (matrix_column returns_matrix i)) with hcums
    set top := take_top cums n_top (argsort_desc cums) with htop
    have hcl : cums.length = n_assets := by
      rw [hcums, List.length_map, List.length_range]
    have hsortnd : (argsort_desc cums).Nodup :=
      (argsort_desc_perm cums).nodup_iff.mpr (List.nodup_range _)
    obtain ⟨hnd, hmem⟩ := take_top_foldl_nodup_mem cums n_top (argsort_desc cums) []
      (List.nodup_nil) hsortnd (by simp)
    have hmem' : ∀ i ∈ top, i < n_assets := by
      intro i hi
      rcases hmem i hi with hi' | hi'
      · cases hi'
      · have := (argsort_desc_perm cums).mem_iff.mp hi'
        rw [List.mem_range, hcl] at this
        exact this
    have hlen : top.length ≠ 0 := fun h => h3 (List.length_eq_zero.mp h)
    have hlenK : (0 : K) < (top.length : K) := by
      exact_mod_cast Nat.pos_of_ne_zero hlen
    constructor
    · intro w hw
      obtain ⟨i, _, rfl⟩ := List.mem_map.mp hw
      split_ifs
      · positivity
      · exact le_rfl
    · left
      rw [sum_indicator_range n_assets top (1 / (top.length : K)) hmem' hnd, nsmul_eq_mul]
      field_simp

theorem calculate_equal_weights_exclude_losing_spec {K : Type*} [LinearOrderedField K]
    (n_assets : ℕ) (returns_matrix : List (List K)) (current_day lookback : ℕ)
    (hn : 0 < n_assets) :
    (∀ w ∈ calculate_equal_weights_exclude_losing n_assets returns_matrix current_day lookback,
      0 ≤ w) ∧
    ((calculate_equal_weights_exclude_losing n_assets returns_matrix current_day lookback).sum = 1 ∨
      (calculate_equal_weights_exclude_losing n_assets returns_matrix current_day lookback).sum
        = 0) := by
  simp only [calculate_equal_weights_exclude_losing]
  split_ifs with h1 h2
  · obtain ⟨ha, hb⟩ := equal_weights_spec (K := K) n_assets hn
    exact ⟨ha, Or.inl hb⟩
  · exact ⟨fun w hw => le_of_eq (List.eq_of_mem_replicate hw).symm, Or.inr (by simp)⟩
  · set cums := (List.range n_assets).map
      (fun i => cum_return (matrix_column
        ((returns_matrix.take current_day).drop (current_day - lookback)) i)) with hcums
    have hkK : (0 : K) < ((cums.countP (fun c => decide (0 < c)) : ℕ) : K) := by
      exact_mod_cast Nat.pos_of_ne_zero h2
    constructor
    · intro w hw
      obtain ⟨c, _, rfl⟩ := List.mem_map.mp hw
      split_ifs
      · positivity
      · exact le_rfl
    · left
      rw [sum_map_ite_countP, nsmul_eq_mul]
      field_simp

theorem calculate_risk_parity_weights_spec
    (n_assets : ℕ) (returns_matrix : List (List ℝ)) (current_day lookback : ℕ)
    (hn : 0 < n_assets) :
    (∀ w ∈ calculate_risk_parity_weights n_assets returns_matrix current_day lookback, 0 ≤ w) ∧
    ((calculate_risk_parity_weights n_assets returns_matrix current_day lookback).sum = 1 ∨
      (calculate_risk_parity_weights n_assets returns_matrix current_day lookback).sum = 0) := by
  simp only [calculate_risk_parity_weights]
  split_ifs with h1 h2 h3
  · obtain ⟨ha, hb⟩ := equal_weights_spec (K := ℝ) n_assets hn
    exact ⟨ha, Or.inl hb⟩
  · exact ⟨fun w hw => le_of_eq (List.eq_of_mem_replicate hw).symm, Or.inr (by simp)⟩
  · have hnn : ∀ w ∈ (List.range n_assets).map
        (fun i =>
          if 0 < ((List.range n_assets).map
              (fun i => cum_return (matrix_column
                ((returns_matrix.take current_day).drop (current_day - lookback)) i))).getD i 0 ∧
            0 < ((List.range n_assets).map
              (fun i => np_std (matrix_column
                ((returns_matrix.take current_day).drop (current_day - lookback)) i))).getD i 0
          then 1 / ((List.range n_assets).map
              (fun i => np_std (matrix_column
                ((returns_matrix.take current_day).drop (current_day - lookback)) i))).getD i 0
          else 0), 0 ≤ w := by
      intro w hw
      obtain ⟨i, _, rfl⟩ := List.mem_map.mp hw
      split_ifs with hc
      · exact le_of_lt (one_div_pos.mpr hc.2)
      · exact le_rfl
    constructor
    · intro w hw
      obtain ⟨v, hv, rfl⟩ := List.mem_map.mp hw
      exact div_nonneg (hnn v hv) (le_of_lt h3)
    · left
      rw [list_sum_map_div]
      exact div_self (ne_of_gt h3)
  · exact ⟨fun w hw => le_of_eq (List.eq_of_mem_replicate hw).symm, Or.inr (by simp)⟩

/-- **C4**: for every allocation policy of the rebalancer and every input, the
returned weight vector has every entry ≥ 0 and sums to exactly 1 or exactly 0;
and whenever the supplied lookback slice has fewer rows than `lookback`, the
policy returns the equal-weight vector `1/N`. -/
theorem rebalancer_weights_valid (method : RebalanceMethod) (n_assets : ℕ)
    (returns_matrix : List (List ℝ)) (current_day lookback : ℕ)
    (hn : 0 < n_assets) (hday : current_day ≤ returns_matrix.length) :
    (∀ w ∈ rebalancer_calculate_weights n_assets returns_matrix current_day lookback method,
      0 ≤ w) ∧
    ((rebalancer_calculate_weights n_assets returns_matrix current_day lookback method).sum = 1 ∨
      (rebalancer_calculate_weights n_assets returns_matrix current_day lookback method).sum
        = 0) ∧
    (((returns_matrix.take current_day).drop (current_day - lookback)).length < lookback →
      rebalancer_calculate_weights n_assets returns_matrix current_day lookback method =
        List.replicate n_assets (1 / (n_assets : ℝ))) := by
  have hslice : ((returns_matrix.take current_day).drop (current_day - lookback)).length
      = min lookback current_day := by
    rw [List.length_drop, List.length_take]
    omega
  cases method with
  | momentum =>
    obtain ⟨ha, hb⟩ := calculate_momentum_weights_spec n_assets
      ((returns_matrix.take current_day).drop (current_day - lookback)) lookback hn
    refine ⟨ha, hb, fun hlen => ?_⟩
    show calculate_momentum_weights n_assets _ lookback = _
    rw [calculate_momentum_weights, if_pos hlen]
  | sharpe_momentum =>
    obtain ⟨ha, hb⟩ := calculate_sharpe_momentum_weights_spec n_assets
      ((returns_matrix.take current_day).drop (current_day - lookback)) lookback hn
    refine ⟨ha, hb, fun hlen => ?_⟩
    show calculate_sharpe_momentum_weights n_assets _ lookback = _
    rw [calculate_sharpe_momentum_weights, if_pos hlen]
  | top_n_ranking =>
    obtain ⟨ha, hb⟩ := calculate_top_n_ranking_weights_spec n_assets
      ((returns_matrix.take current_day).drop (current_day - lookback)) lookback 5 hn
    refine ⟨ha, hb, fun hlen => ?_⟩
    show calculate_top_n_ranking_weights n_assets _ lookback 5 = _
    rw [calculate_top_n_ranking_weights]
    rw [if_pos hlen]
  | equal =>
    obtain ⟨ha, hb⟩ := calculate_equal_weights_exclude_losing_spec n_assets
      returns_matrix current_day lookback hn
    refine ⟨ha, hb, fun hlen => ?_⟩
    have hcd : current_day < lookback := by
      rw [hslice] at hlen
      omega
    show calculate_equal_weights_exclude_losing n_assets returns_matrix current_day lookback = _
    simp only [calculate_equal_weights_exclude_losing]
    rw [if_pos hcd]
  | risk_parity =>
    obtain ⟨ha, hb⟩ := calculate_risk_parity_weights_spec n_assets
      returns_matrix current_day lookback hn
    refine ⟨ha, hb, fun hlen => ?_⟩
    have hcd : current_day < lookback := by
      rw [hslice] at hlen
      omega
    show calculate_risk_parity_weights n_assets returns_matrix current_day lookback = _
    simp only [calculate_risk_parity_weights]
    rw [if_pos hcd]

/-- Witness for `rebalancer_weights_valid`: the Momentum policy with two
strategies, an empty returns table, day 0 and lookback 1 (a slice of 0 < 1
rows, so the equal-weight bootstrap fallback applies). -/
theorem rebalancer_weights_valid_witness :
    (∀ w ∈ rebalancer_calculate_weights 2 ([] : List (List ℝ)) 0 1 .momentum, 0 ≤ w) ∧
    ((rebalancer_calculate_weights 2 ([] : List (List ℝ)) 0 1 .momentum).sum = 1 ∨
      (rebalancer_calculate_weights 2 ([] : List (List ℝ)) 0 1 .momentum).sum = 0) ∧
    ((([] : List (List ℝ)).take 0 |>.drop (0 - 1)).length < 1 →
      rebalancer_calculate_weights 2 ([] : List (List ℝ)) 0 1 .momentum =
        List.replicate 2 (1 / (2 : ℝ))) :=
  rebalancer_weights_valid .momentum 2 [] 0 1 (by norm_num) (by norm_num)

end ClaimC4

section ClaimC8Lemmas

theorem list_sum_getD (l : List ℝ) : l.sum = ∑ i ∈ Finset.range l.length, l.getD i 0 := by
  induction l with
  | nil => simp
  | cons x xs ih =>
    rw [List.sum_cons, ih, List.length_cons, Finset.sum_range_succ']
    simp [add_comm]

theorem list_map_sum (l : List ℝ) (f : ℝ → ℝ) :
    (l.map f).sum = ∑ i ∈ Finset.range l.length, f (l.getD i 0) := by
  rw [list_sum_getD (l.map f), List.length_map]
  refine Finset.sum_congr rfl fun i hi => ?_
  have hi' : i < l.length := Finset.mem_range.mp hi
  rw [List.getD_eq_getElem _ _ (by simpa using hi'), List.getElem_map,
    List.getD_eq_getElem _ _ hi']

theorem list_zipWith_sum (f : ℝ → ℝ → ℝ) (a b : List ℝ) (h : a.length = b.length) :
    (List.zipWith f a b).sum = ∑ i ∈ Finset.range a.length, f (a.getD i 0) (b.getD i 0) := by
  rw [list_sum_getD (List.zipWith f a b), List.length_zipWith, ← h, min_self]
  refine Finset.sum_congr rfl fun i hi => ?_
  have hi' : i < a.length := Finset.mem_range.mp hi
  have hib : i < b.length := h ▸ hi'
  have hiz : i < (List.zipWith f a b).length := by
    rw [List.length_zipWith, ← h, min_self]
    exact hi'
  rw [List.getD_eq_getElem _ _ hiz, List.getElem_zipWith,
    List.getD_eq_getElem _ _ hi', List.getD_eq_getElem _ _ hib]

theorem idx_list_length (n : ℕ) : (idx_list n).length = n := by
  rw [idx_list, List.length_map, List.length_range]

theorem idx_list_getElem (n i : ℕ) (h : i < (idx_list n).length) :
    (idx_list n)[i] = (i : ℝ) := by
  simp only [idx_list, List.getElem_map, List.getElem_range]

theorem idx_list_getD (n i : ℕ) (h : i < n) : (idx_list n).getD i 0 = (i : ℝ) := by
  rw [List.getD_eq_getElem _ _ (by rw [idx_list_length]; exact h), idx_list_getElem]

theorem dev_sq_sum_eq (l : List ℝ) :
    dev_sq_sum l = ∑ i ∈ Finset.range l.length, (l.getD i 0 - np_mean l) ^ 2 := by
  rw [dev_sq_sum, dev, List.map_map, list_map_sum]
  rfl

theorem dev_prod_sum_eq (x y : List ℝ) (h : x.length = y.length) :
    dev_prod_sum x y =
      ∑ i ∈ Finset.range x.length,
        (x.getD i 0 - np_mean x) * (y.getD i 0 - np_mean y) := by
  rw [dev_prod_sum, dev, dev, List.zipWith_map_left, List.zipWith_map_right,
    list_zipWith_sum _ _ _ h]

theorem ols_predictions_length (values : List ℝ) :
    (ols_predictions values).length = values.length := by
  rw [ols_predictions, List.length_map, idx_list_length]

theorem ols_predictions_getD (values : List ℝ) (i : ℕ) (h : i < values.length) :
    (ols_predictions values).getD i 0 =
      np_mean values + ols_slope values * ((i : ℝ) - np_mean (idx_list values.length)) := by
  rw [ols_predictions,
    List.getD_eq_getElem _ _ (by rw [List.length_map, idx_list_length]; exact h),
    List.getElem_map, idx_list_getElem]

theorem sum_sq_dev_index_pos (n : ℕ) (hn : 2 ≤ n) (c : ℝ) :
    0 < ∑ i ∈ Finset.range n, ((i : ℝ) - c) ^ 2 := by
  by_cases hc : c = 0
  · have hmem : 1 ∈ Finset.range n := Finset.mem_range.mpr (by omega)
    refine lt_of_lt_of_le ?_
      (Finset.single_le_sum (f := fun i : ℕ => ((i : ℝ) - c) ^ 2)
        (fun i _ => sq_nonneg _) hmem)
    rw [hc]
    norm_num
  · have hmem : 0 ∈ Finset.range n := Finset.mem_range.mpr (by omega)
    refine lt_of_lt_of_le ?_
      (Finset.single_le_sum (f := fun i : ℕ => ((i : ℝ) - c) ^ 2)
        (fun i _ => sq_nonneg _) hmem)
    have hbase : ((0 : ℕ) : ℝ) - c ≠ 0 := by
      rw [Nat.cast_zero, zero_sub]
      exact neg_ne_zero.mpr hc
    exact pow_two_pos_of_ne_zero hbase

theorem ols_residual_identity (n : ℕ) (xm ym : ℕ → ℝ)
    (hSxx : 0 < ∑ j ∈ Finset.range n, xm j ^ 2) :
    (∑ i ∈ Finset.range n,
        (ym i - (∑ j ∈ Finset.range n, xm j * ym j) / (∑ j ∈ Finset.range n, xm j ^ 2) * xm i)
          ^ 2)
      = (∑ i ∈ Finset.range n, ym i ^ 2)
        - (∑ j ∈ Finset.range n, xm j * ym j) ^ 2 / (∑ j ∈ Finset.range n, xm j ^ 2) := by
  set Sxx := ∑ j ∈ Finset.range n, xm j ^ 2 with hSxxdef
  set Sxy := ∑ j ∈ Finset.range n, xm j * ym j with hSxydef
  have hne : Sxx ≠ 0 := ne_of_gt hSxx
  have hexp : ∀ i ∈ Finset.range n,
      (ym i - Sxy / Sxx * xm i) ^ 2
        = ym i ^ 2 - 2 * (Sxy / Sxx) * (xm i * ym i) + (Sxy / Sxx) ^ 2 * xm i ^ 2 :=
    fun i _ => by ring
  rw [Finset.sum_congr rfl hexp, Finset.sum_add_distrib, Finset.sum_sub_distrib,
    ← Finset.mul_sum, ← Finset.mul_sum, ← hSxydef, ← hSxxdef]
  field_simp
  ring

theorem sum_mul_le_sqrt_mul_sqrt (n : ℕ) (xm ym : ℕ → ℝ) :
    (∑ j ∈ Finset.range n, xm j * ym j) ≤
      Real.sqrt (∑ j ∈ Finset.range n, xm j ^ 2) *
        Real.sqrt (∑ j ∈ Finset.range n, ym j ^ 2) := by
  have hcs := Finset.sum_mul_sq_le_sq_mul_sq (Finset.range n) xm ym
  refine le_trans (le_trans (le_abs_self _) (le_of_eq (Real.sqrt_sq_eq_abs _).symm)) ?_
  rw [← Real.sqrt_mul (Finset.sum_nonneg fun j _ => sq_nonneg (xm j))]
  exact Real.sqrt_le_sqrt hcs

end ClaimC8Lemmas

section ClaimC8

theorem score_bounds_core (Sxx Syy Sxy ssres r2 corr : ℝ)
    (hSxx : 0 < Sxx) (hSyy : 0 ≤ Syy) (hssres : 0 ≤ ssres)
    (hid : ssres = Syy - Sxy ^ 2 / Sxx)
    (hcs : Sxy ≤ Real.sqrt Sxx * Real.sqrt Syy)
    (hr2 : r2 = if Syy = 0 then (if ssres = 0 then 1 else 0) else 1 - ssres / Syy)
    (hcorr : corr = Sxy / (Real.sqrt Sxx * Real.sqrt Syy)) :
    0 ≤ r2 * max 0 corr ∧ r2 * max 0 corr ≤ 1 := by
  rcases eq_or_lt_of_le hSyy with hSyy0 | hSyypos
  · -- a constant series: the correlation degenerates to 0, hence a 0 score
    have h1 : Sxy ^ 2 / Sxx ≤ 0 := by
      rw [hid, ← hSyy0] at hssres
      linarith
    have h2 : 0 ≤ Sxy ^ 2 / Sxx := div_nonneg (sq_nonneg Sxy) (le_of_lt hSxx)
    have h3 : Sxy ^ 2 = 0 := by
      rcases div_eq_zero_iff.mp (le_antisymm h1 h2) with h | h
      · exact h
      · exact absurd h (ne_of_gt hSxx)
    have h4 : Sxy = 0 := pow_eq_zero_iff (by norm_num) |>.mp h3
    have h5 : corr = 0 := by rw [hcorr, h4, zero_div]
    rw [h5]
    simp
  · have hr2val : r2 = 1 - ssres / Syy := by
      rw [hr2, if_neg (ne_of_gt hSyypos)]
    have hfrac_le : ssres ≤ Syy := by
      rw [hid]
      have : 0 ≤ Sxy ^ 2 / Sxx := div_nonneg (sq_nonneg Sxy) (le_of_lt hSxx)
      linarith
    have hr2_nonneg : 0 ≤ r2 := by
      rw [hr2val]
      have := (div_le_one hSyypos).mpr hfrac_le
      linarith
    have hr2_le : r2 ≤ 1 := by
      rw [hr2val]
      have : 0 ≤ ssres / Syy := div_nonneg hssres (le_of_lt hSyypos)
      linarith
    have hD : 0 < Real.sqrt Sxx * Real.sqrt Syy :=
      mul_pos (Real.sqrt_pos.mpr hSxx) (Real.sqrt_pos.mpr hSyypos)
    have hcorr_le : corr ≤ 1 := by
      rw [hcorr]
      exact (div_le_one hD).mpr hcs
    have hmax_nonneg : 0 ≤ max 0 corr := le_max_left 0 corr
    have hmax_le : max 0 corr ≤ 1 := max_le (by norm_num) hcorr_le
    exact ⟨mul_nonneg hr2_nonneg hmax_nonneg, mul_le_one₀ hr2_le hmax_nonneg hmax_le⟩

/-- **C8**: for series shorter than 10, `calculate_linearity_metrics` returns
the degenerate record (all statistics 0, `residual_std` infinite); for every
series of length ≥ 10 the linearity score equals
`r2_score (values, OLS predictions) * max 0 (pearsonr (index, values))` and
lies in `[0, 1]`. -/
theorem linearity_metrics_spec (portfolio_values_series : List ℝ) :
    (portfolio_values_series.length < 10 →
      calculate_linearity_metrics portfolio_values_series = ⟨0, 0, 0, 0, none⟩) ∧
    (10 ≤ portfolio_values_series.length →
      (calculate_linearity_metrics portfolio_values_series).linearity_score =
          r2_score portfolio_values_series (ols_predictions portfolio_values_series) *
            max 0 (pearson_r (idx_list portfolio_values_series.length)
              portfolio_values_series) ∧
        0 ≤ (calculate_linearity_metrics portfolio_values_series).linearity_score ∧
        (calculate_linearity_metrics portfolio_values_series).linearity_score ≤ 1) := by
  constructor
  · intro h
    rw [calculate_linearity_metrics, if_pos h]
  · intro h10
    have hlt : ¬ portfolio_values_series.length < 10 := not_lt.mpr h10
    have hfield : (calculate_linearity_metrics portfolio_values_series).linearity_score =
        r2_score portfolio_values_series (ols_predictions portfolio_values_series) *
          max 0 (pearson_r (idx_list portfolio_values_series.length)
            portfolio_values_series) := by
      rw [calculate_linearity_metrics, if_neg hlt]
    -- Finset bridges
    have hSxxb : dev_sq_sum (idx_list portfolio_values_series.length)
        = ∑ i ∈ Finset.range portfolio_values_series.length,
            ((i : ℝ) - np_mean (idx_list portfolio_values_series.length)) ^ 2 := by
      rw [dev_sq_sum_eq, idx_list_length]
      exact Finset.sum_congr rfl fun i hi => by
        rw [idx_list_getD _ i (Finset.mem_range.mp hi)]
    have hSyyb : dev_sq_sum portfolio_values_series
        = ∑ i ∈ Finset.range portfolio_values_series.length,
            (portfolio_values_series.getD i 0 - np_mean portfolio_values_series) ^ 2 :=
      dev_sq_sum_eq portfolio_values_series
    have hSxyb : dev_prod_sum (idx_list portfolio_values_series.length)
          portfolio_values_series
        = ∑ i ∈ Finset.range portfolio_values_series.length,
            ((i : ℝ) - np_mean (idx_list portfolio_values_series.length)) *
              (portfolio_values_series.getD i 0 - np_mean portfolio_values_series) := by
      rw [dev_prod_sum_eq _ _ (idx_list_length portfolio_values_series.length),
        idx_list_length]
      exact Finset.sum_congr rfl fun i hi => by
        rw [idx_list_getD _ i (Finset.mem_range.mp hi)]
    have hSxxpos : 0 < ∑ i ∈ Finset.range portfolio_values_series.length,
        ((i : ℝ) - np_mean (idx_list portfolio_values_series.length)) ^ 2 :=
      sum_sq_dev_index_pos portfolio_values_series.length (by omega) _
    have hslope : ols_slope portfolio_values_series
        = (∑ j ∈ Finset.range portfolio_values_series.length,
              ((j : ℝ) - np_mean (idx_list portfolio_values_series.length)) *
                (portfolio_values_series.getD j 0 - np_mean portfolio_values_series)) /
            (∑ j ∈ Finset.range portfolio_values_series.length,
              ((j : ℝ) - np_mean (idx_list portfolio_values_series.length)) ^ 2) := by
      rw [ols_slope, hSxyb, hSxxb]
    have hres : (List.zipWith (fun a b => (a - b) ^ 2) portfolio_values_series
          (ols_predictions portfolio_values_series)).sum
        = ∑ i ∈ Finset.range portfolio_values_series.length,
            ((portfolio_values_series.getD i 0 - np_mean portfolio_values_series) -
              ((∑ j ∈ Finset.range portfolio_values_series.length,
                  ((j : ℝ) - np_mean (idx_list portfolio_values_series.length)) *
                    (portfolio_values_series.getD j 0 - np_mean portfolio_values_series)) /
                (∑ j ∈ Finset.range portfolio_values_series.length,
                  ((j : ℝ) - np_mean (idx_list portfolio_values_series.length)) ^ 2)) *
                ((i : ℝ) - np_mean (idx_list portfolio_values_series.length))) ^ 2 := by
      rw [list_zipWith_sum _ _ _ (ols_predictions_length portfolio_values_series).symm]
      refine Finset.sum_congr rfl fun i hi => ?_
      rw [ols_predictions_getD portfolio_values_series i (Finset.mem_range.mp hi), hslope]
      ring
    have hid : (List.zipWith (fun a b => (a - b) ^ 2) portfolio_values_series
          (ols_predictions portfolio_values_series)).sum
        = (∑ i ∈ Finset.range portfolio_values_series.length,
              (portfolio_values_series.getD i 0 - np_mean portfolio_values_series) ^ 2) -
            (∑ j ∈ Finset.range portfolio_values_series.length,
                ((j : ℝ) - np_mean (idx_list portfolio_values_series.length)) *
                  (portfolio_values_series.getD j 0 - np_mean portfolio_values_series)) ^ 2 /
              (∑ j ∈ Finset.range portfolio_values_series.length,
                ((j : ℝ) - np_mean (idx_list portfolio_values_series.length)) ^ 2) :=
      hres.trans (ols_residual_identity portfolio_values_series.length
        (fun i => (i : ℝ) - np_mean (idx_list portfolio_values_series.length))
        (fun i => portfolio_values_series.getD i 0 - np_mean portfolio_values_series)
        hSxxpos)
    have hssnn : 0 ≤ (List.zipWith (fun a b => (a - b) ^ 2) portfolio_values_series
        (ols_predictions portfolio_values_series)).sum := by
      rw [hres]
      exact Finset.sum_nonneg fun i _ => sq_nonneg _
    have hr2 : r2_score portfolio_values_series (ols_predictions portfolio_values_series)
        = if (∑ i ∈ Finset.range portfolio_values_series.length,
              (portfolio_values_series.getD i 0 - np_mean portfolio_values_series) ^ 2) = 0
          then (if (List.zipWith (fun a b => (a - b) ^ 2) portfolio_values_series
              (ols_predictions portfolio_values_series)).sum = 0 then 1 else 0)
          else 1 - (List.zipWith (fun a b => (a - b) ^ 2) portfolio_values_series
              (ols_predictions portfolio_values_series)).sum /
            (∑ i ∈ Finset.range portfolio_values_series.length,
              (portfolio_values_series.getD i 0 - np_mean portfolio_values_series) ^ 2) := by
      simp only [r2_score]
      rw [hSyyb]
    have hcorr : pearson_r (idx_list portfolio_values_series.length) portfolio_values_series
        = (∑ j ∈ Finset.range portfolio_values_series.length,
              ((j : ℝ) - np_mean (idx_list portfolio_values_series.length)) *
                (portfolio_values_series.getD j 0 - np_mean portfolio_values_series)) /
            (Real.sqrt (∑ j ∈ Finset.range portfolio_values_series.length,
                ((j : ℝ) - np_mean (idx_list portfolio_values_series.length)) ^ 2) *
              Real.sqrt (∑ j ∈ Finset.range portfolio_values_series.length,
                (portfolio_values_series.getD j 0 - np_mean portfolio_values_series) ^ 2)) := by
      rw [pearson_r, hSxyb, hSxxb, hSyyb]
    have hcore := score_bounds_core
      (∑ j ∈ Finset.range portfolio_values_series.length,
        ((j : ℝ) - np_mean (idx_list portfolio_values_series.length)) ^ 2)
      (∑ i ∈ Finset.range portfolio_values_series.length,
        (portfolio_values_series.getD i 0 - np_mean portfolio_values_series) ^ 2)
      (∑ j ∈ Finset.range portfolio_values_series.length,
        ((j : ℝ) - np_mean (idx_list portfolio_values_series.length)) *
          (portfolio_values_series.getD j 0 - np_mean portfolio_values_series))
      ((List.zipWith (fun a b => (a - b) ^ 2) portfolio_values_series
        (ols_predictions portfolio_values_series)).sum)
      (r2_score portfolio_values_series (ols_predictions portfolio_values_series))
      (pearson_r (idx_list portfolio_values_series.length) portfolio_values_series)
      hSxxpos (Finset.sum_nonneg fun i _ => sq_nonneg _) hssnn hid
      (sum_mul_le_sqrt_mul_sqrt portfolio_values_series.length
        (fun i => (i : ℝ) - np_mean (idx_list portfolio_values_series.length))
        (fun i => portfolio_values_series.getD i 0 - np_mean portfolio_values_series))
      hr2 hcorr
    rw [hfield]
    exact ⟨rfl, hcore.1, hcore.2⟩

/-- Witness for `linearity_metrics_spec`: the singleton series hits the
degenerate branch; a length-10 series gets a score in `[0, 1]`. -/
theorem linearity_metrics_spec_witness :
    calculate_linearity_metrics [(1 : ℝ)] = ⟨0, 0, 0, 0, none⟩ ∧
    0 ≤ (calculate_linearity_metrics (List.replicate 10 (0 : ℝ))).linearity_score ∧
    (calculate_linearity_metrics (List.replicate 10 (0 : ℝ))).linearity_score ≤ 1 :=
  ⟨(linearity_metrics_spec [1]).1 (by simp),
    ((linearity_metrics_spec (List.replicate 10 0)).2 (by simp)).2.1,
    ((linearity_metrics_spec (List.replicate 10 0)).2 (by simp)).2.2⟩

end ClaimC8
